import Mathlib

/-! timehash: interval-bisection codec over a fixed time domain

Shallow embedding of `src/c-impl/time_hash.c`, `src/c-impl/time_hash.h` and
`src/time_hash.h`.

Modelling conventions.
* The codec is embedded twice. In the exact reading a C `double` is a rational
  `ℚ` and `x * 0.5` is `x * (1/2)`. In the binary64 reading (names ending in
  `_f64`) a `double` is an IEEE 754 double, counted in units of `2^-1074`, and
  every sum is rounded to nearest, ties to even.
* A C string is the `List Char` of its bytes before the terminating NUL;
  a nullable pointer to one is an `Option (List Char)`.
* A C `int` is an `Int` (lengths stay far below `2^31`).
* An out-parameter is returned next to the return code.
-/

namespace TimeHash

/-! ## Constants (`time_hash.c` lines 4-10) -/

/-- `const char* BASE32_TH = "01abcdef";` -/
def BASE32_TH : List Char := ['0', '1', 'a', 'b', 'c', 'd', 'e', 'f']

/-- `const char* BEFORE_TH = "f01abcde";` -/
def BEFORE_TH : List Char := ['f', '0', '1', 'a', 'b', 'c', 'd', 'e']

/-- `const char* AFTER_TH = "1abcdef0";` -/
def AFTER_TH : List Char := ['1', 'a', 'b', 'c', 'd', 'e', 'f', '0']

/-- `const int MASK_ARR_TH[] = { 4, 2, 1 };` -/
def MASK_ARR_TH : List Int := [4, 2, 1]

/-- `const double TIME_INTERVAL_START_TH = 0.0;` -/
def TIME_INTERVAL_START_TH : ℚ := 0

/-- `const double TIME_INTERVAL_END_TH = 4039372800.0;` -/
def TIME_INTERVAL_END_TH : ℚ := 4039372800

/-- The terminating NUL byte of a C string, read when an index hits the terminator. -/
def NUL : Char := Char.ofNat 0

/-- The value `(int)c` of the C `char` holding the byte of code `c`: `char` is a
signed byte, as on x86-64, so the codes 128..255 read as `code - 256`. -/
def char_int (c : Char) : Int :=
  if c.toNat < 128 then (c.toNat : Int) else (c.toNat : Int) - 256

/-- `#define CHAR_TO_IDX(A) ((int)A > 49) ? ((int)A - 95) : ((int)A - 48)` -/
def CHAR_TO_IDX (A : Char) : Int :=
  if char_int A > 49 then char_int A - 95 else char_int A - 48

/-! ## `encode_time_hash` (`time_hash.c` lines 36-70) -/

/-- The local variables of `encode_time_hash` together with the output buffer;
`stop` is the local `end`, a reserved word here. -/
structure EncodeState where
  start : ℚ
  stop : ℚ
  thlen : Int
  bit : Nat
  ch : Int
  buffer : List Char
  deriving DecidableEq

/-- One iteration of the body of `while (thlen < precision)`. -/
def encode_step (epoch_time : ℚ) (s : EncodeState) : EncodeState :=
  let mid := (s.start + s.stop) * (1 / 2)
  let s1 : EncodeState :=
    if epoch_time > mid then
      { s with ch := Int.lor s.ch (MASK_ARR_TH.getD s.bit 0), start := mid }
    else
      { s with stop := mid }
  if s1.bit < 2 then
    { s1 with bit := s1.bit + 1 }
  else
    { s1 with
      buffer := s1.buffer.set s1.thlen.toNat (BASE32_TH.getD s1.ch.toNat NUL)
      thlen := s1.thlen + 1
      bit := 0
      ch := 0 }

/-- The loop `while (thlen < precision) body`, run for at most `fuel` iterations;
`none` when the guard still holds after `fuel` iterations. -/
def encode_loop (epoch_time : ℚ) (precision : Int) : Nat → EncodeState → Option EncodeState
  | 0, s => if s.thlen < precision then none else some s
  | fuel + 1, s =>
    if s.thlen < precision then encode_loop epoch_time precision fuel (encode_step epoch_time s)
    else some s

/-- `int encode_time_hash(double epoch_time, int precision, char* buffer)`:
the return code and the buffer after the call. The loop is given `3 * precision`
iterations of fuel. -/
def encode_time_hash (epoch_time : ℚ) (precision : Int) (buffer : Option (List Char)) :
    Option (Int × Option (List Char)) :=
  if precision ≤ 0 then some (-1, buffer)
  else
    match buffer with
    | none => some (-2, none)
    | some b =>
      if (b.length : Int) ≠ precision then some (-3, some b)
      else
        (encode_loop epoch_time precision (3 * precision.toNat)
          { start := TIME_INTERVAL_START_TH, stop := TIME_INTERVAL_END_TH,
            thlen := 0, bit := 0, ch := 0, buffer := b }).map
          fun s => (0, some s.buffer)

/-! ## `decode_exactly_time_hash`, `decode_time_hash` (`time_hash.c` lines 72-111) -/

/-- `struct time_hash` (`time_hash.h` lines 10-14). -/
structure time_hash where
  hash_code : List Char
  center : ℚ
  error : ℚ
  deriving DecidableEq

/-- The locals `start`, `end` (here `stop`) and `time_error` of
`decode_exactly_time_hash`. -/
structure DecodeState where
  start : ℚ
  stop : ℚ
  time_error : ℚ
  deriving DecidableEq

/-- The body of `for (int j = 0; j < 3; j++)`, for the mask `MASK_ARR_TH[j]`. -/
def decode_bit (cd : Int) (s : DecodeState) (mask : Int) : DecodeState :=
  let time_error := s.time_error * (1 / 2)
  let mid := (s.start + s.stop) * (1 / 2)
  if Int.land cd mask = 0 then
    { start := s.start, stop := mid, time_error := time_error }
  else
    { start := mid, stop := s.stop, time_error := time_error }

/-- The body of `for (int i = 0; i < len; i++)`, for the character `hash_code[i]`. -/
def decode_char (s : DecodeState) (c : Char) : DecodeState :=
  let cd := CHAR_TO_IDX c
  MASK_ARR_TH.foldl (decode_bit cd) s

/-- The state of `decode_exactly_time_hash` before its loop. -/
def decode_init : DecodeState :=
  { start := TIME_INTERVAL_START_TH
    stop := TIME_INTERVAL_END_TH
    time_error := (TIME_INTERVAL_START_TH + TIME_INTERVAL_END_TH) * (1 / 2) }

/-- The state of `decode_exactly_time_hash` after its loop over `hash_code`. -/
def decode_loop (hash_code : List Char) : DecodeState :=
  hash_code.foldl decode_char decode_init

/-- `int decode_exactly_time_hash(const char* hash_code, struct time_hash* th)`:
the return code and the struct behind `th` after the call. -/
def decode_exactly_time_hash (hash_code : Option (List Char)) (th : Option time_hash) :
    Int × Option time_hash :=
  match hash_code with
  | none => (-1, th)
  | some h =>
    match th with
    | none => (-2, none)
    | some _ =>
      let s := decode_loop h
      let time_val := (s.start + s.stop) * (1 / 2)
      (0, some { hash_code := h, center := time_val, error := s.time_error })

/-- `double decode_time_hash(const char* hash_code)`; the local `struct time_hash th`
is never read before it is written, so its initial contents are immaterial. -/
def decode_time_hash (hash_code : Option (List Char)) : ℚ :=
  match decode_exactly_time_hash hash_code (some { hash_code := [], center := 0, error := 0 }) with
  | (0, some th) => th.center
  | _ => -1

/-! ## Neighbour navigation (`time_hash.c` lines 12-19 and 113-173) -/

/-- `char NEIGHBOR_MAP_TH[8][2];` before `init_time_hash`: zero-initialised. -/
def NEIGHBOR_MAP_TH_zero : List (List Char) := List.replicate 8 [NUL, NUL]

/-- The body of the loop of `init_time_hash` for index `i`. -/
def init_step (map : List (List Char)) (i : Nat) : List (List Char) :=
  let row := (CHAR_TO_IDX (BASE32_TH.getD i NUL)).toNat
  let map1 := map.set row ((map.getD row []).set 0 (BEFORE_TH.getD i NUL))
  map1.set row ((map1.getD row []).set 1 (AFTER_TH.getD i NUL))

/-- `void init_time_hash()`: the contents of `NEIGHBOR_MAP_TH` after the call. -/
def init_time_hash (map : List (List Char)) : List (List Char) :=
  (List.range 8).foldl init_step map

/-- The read `NEIGHBOR_MAP_TH[idx][neighbor]`; `none` when an index is outside the
array `char[8][2]` (undefined behaviour in C). -/
def neighbor_lookup (map : List (List Char)) (idx neighbor : Int) : Option Char :=
  if 0 ≤ idx ∧ idx < 8 ∧ 0 ≤ neighbor ∧ neighbor < 2 then
    (map.getD idx.toNat []).get? neighbor.toNat
  else none

/-- The loop `for (int n = 0; n < i - 1; n++) buffer[pos + n + 1] = fill;`. -/
def fill_loop (fill : Char) (pos : Nat) (buffer : List Char) : List Nat → List Char
  | [] => buffer
  | n :: ns => fill_loop fill pos (buffer.set (pos + n + 1) fill) ns

/-- The loop `for (int m = 0; m < len; m++)` of `before_or_after_th`, over the
characters `reversed[m], reversed[m+1], ...` still to visit; `i` is the local `i`.
The result is `succeeded` and the buffer; `none` when the table read is out of
bounds. -/
def scan_loop (map : List (List Char)) (hash_code : List Char) (neighbor : Int) (cmp : Char) :
    List Char → Nat → List Char → Option (Int × List Char)
  | [], _, buffer => some (-4, buffer)
  | c :: rest, i, buffer =>
    if c ≠ cmp then
      let pos := hash_code.length - i
      let buffer1 := hash_code.take pos ++ buffer.drop pos
      match neighbor_lookup map (CHAR_TO_IDX c) neighbor with
      | none => none
      | some nb =>
        let buffer2 := buffer1.set pos nb
        some (0, fill_loop (if neighbor = 0 then 'f' else '0') pos buffer2 (List.range (i - 1)))
    else
      scan_loop map hash_code neighbor cmp rest (i + 1) buffer

/-- `int before_or_after_th(const char* hash_code, char* buffer, int neighbor)`,
reading the global `NEIGHBOR_MAP_TH` (here `map`): the return code and the buffer
after the call. -/
def before_or_after_th (map : List (List Char)) (hash_code buffer : Option (List Char))
    (neighbor : Int) : Option (Int × Option (List Char)) :=
  match hash_code with
  | none => some (-1, buffer)
  | some h =>
    match buffer with
    | none => some (-2, none)
    | some b =>
      if h.length ≠ b.length then some (-3, some b)
      else
        let reversed := h.reverse
        let cmp := if neighbor = 0 then '0' else 'f'
        (scan_loop map h neighbor cmp reversed 1 b).map fun r => (r.1, some r.2)

/-- `int before_time_hash(const char* hash_code, char* buffer)`. -/
def before_time_hash (map : List (List Char)) (hash_code buffer : Option (List Char)) :
    Option (Int × Option (List Char)) :=
  before_or_after_th map hash_code buffer 0

/-- `int after_time_hash(const char* hash_code, char* buffer)`. -/
def after_time_hash (map : List (List Char)) (hash_code buffer : Option (List Char)) :
    Option (Int × Option (List Char)) :=
  before_or_after_th map hash_code buffer 1

/-! ## `th::time_hash::validate` (`src/time_hash.h` lines 63-71) -/

/-- `static const char* BASE32` of the C++ class. -/
def BASE32 : List Char := ['0', '1', 'a', 'b', 'c', 'd', 'e', 'f']

/-- The position `b32.find(c)` returns, `none` for `string::npos`. -/
def string_find (b32 : List Char) (c : Char) : Option Nat :=
  let i := b32.indexOf c
  if i < b32.length then some i else none

/-- `bool time_hash::validate(const string& hash_code)`: the loop over the
characters of `hash_code`, returning `false` at the first one `b32.find` misses. -/
def validate : List Char → Bool
  | [] => true
  | c :: rest => if string_find BASE32 c = none then false else validate rest

/-! ## `validate_time_hash` (`time_hash.c` lines 21-34) -/

/-- The read `BASE32_TH[j]` of the C string literal `"01abcdef"`: its eight
characters, the terminating NUL at index 8, and `none` past the array (undefined
behaviour in C). -/
def BASE32_TH_read (j : Nat) : Option Char :=
  if j < 8 then some (BASE32_TH.getD j NUL) else if j = 8 then some NUL else none

/-- The loop `for (int j = 0; j < len; j++)` of `validate_time_hash` for the
character `c = hash_code[i]`, over the indices `j` still to visit: the value of
`found` after it, `none` when `BASE32_TH` is read out of bounds. -/
def validate_inner (c : Char) (found : Int) : List Nat → Option Int
  | [] => some found
  | j :: js =>
    match BASE32_TH_read j with
    | none => none
    | some b => if c = b then some 1 else validate_inner c found js

/-- The loop `for (int i = 0; i < len; i++)` of `validate_time_hash` over the
characters still to visit, followed by the final `return -1`. -/
def validate_outer (len : Nat) (found : Int) : List Char → Option Int
  | [] => some (-1)
  | c :: rest =>
    match validate_inner c found (List.range len) with
    | none => none
    | some found1 => if found1 = 1 then some 0 else validate_outer len found1 rest

/-- `int validate_time_hash(const char* hash_code)`: the return code, `none` for
undefined behaviour (`strlen(NULL)` or a read past `BASE32_TH`). -/
def validate_time_hash (hash_code : Option (List Char)) : Option Int :=
  match hash_code with
  | none => none
  | some h => validate_outer h.length (-1) h

/-! ## The C++ class `th::time_hash` (`src/time_hash.h`) -/

namespace time_hash

/-- `const int time_hash::MASK_ARR[] = { 4, 2, 1 };` -/
def MASK_ARR : List Int := [4, 2, 1]

/-- `const double time_hash::TIME_INTERVAL_START = 0.0;` -/
def TIME_INTERVAL_START : ℚ := 0

/-- `const double time_hash::TIME_INTERVAL_END = 4039372800.0;` -/
def TIME_INTERVAL_END : ℚ := 4039372800

/-- `const char time_hash::NEIGHBOR_MAP[8][2]` (`time_hash.h` lines 48-57). -/
def NEIGHBOR_MAP : List (List Char) :=
  [['f', '1'], ['0', 'a'], ['1', 'b'], ['a', 'c'], ['b', 'd'], ['c', 'e'], ['d', 'f'],
    ['e', '0']]

/-- `int time_hash::CHAR_TO_IDX(char c)` (`time_hash.h` lines 59-61). -/
def CHAR_TO_IDX (c : Char) : Int :=
  if char_int c > 49 then char_int c - 95 else char_int c - 48

/-- The locals of `time_hash::encode`; `stop` is the local `end`. -/
structure EncodeLocals where
  start : ℚ
  stop : ℚ
  timehash : List Char
  bit : Nat
  ch : Int
  deriving DecidableEq

/-- One iteration of the body of `while (timehash.size() < precision)`. -/
def encode_body (epoch_time : ℚ) (s : EncodeLocals) : EncodeLocals :=
  let mid := (s.start + s.stop) * (1 / 2)
  let s1 : EncodeLocals :=
    if epoch_time > mid then
      { s with ch := Int.lor s.ch (MASK_ARR.getD s.bit 0), start := mid }
    else
      { s with stop := mid }
  if s1.bit < 2 then
    { s1 with bit := s1.bit + 1 }
  else
    { s1 with
      timehash := s1.timehash ++ [BASE32.getD s1.ch.toNat NUL]
      bit := 0
      ch := 0 }

/-- The `int precision` converted to the unsigned 64-bit `size_t` that
`timehash.size() < precision` compares with. -/
def size_of_int (precision : Int) : Int := precision % 2 ^ 64

/-- The loop `while (timehash.size() < precision) body`, run for at most `fuel`
iterations; `none` when the guard still holds after `fuel` iterations. -/
def encode_while (epoch_time : ℚ) (precision : Int) : Nat → EncodeLocals → Option EncodeLocals
  | 0, s => if (s.timehash.length : Int) < size_of_int precision then none else some s
  | fuel + 1, s =>
    if (s.timehash.length : Int) < size_of_int precision then
      encode_while epoch_time precision fuel (encode_body epoch_time s)
    else some s

/-- `string time_hash::encode(double epoch_time, int precision)`; the loop is given
three iterations of fuel per character asked for. -/
def encode (epoch_time : ℚ) (precision : Int) : Option (List Char) :=
  (encode_while epoch_time precision (3 * (size_of_int precision).toNat)
    { start := TIME_INTERVAL_START, stop := TIME_INTERVAL_END, timehash := [],
      bit := 0, ch := 0 }).map
    fun s => s.timehash

/-- The body of `for (int j = 0; j < 3; j++)` of `time_hash::decode_exactly`, for
the mask `MASK_ARR[j]`. -/
def decode_body (cd : Int) (s : DecodeState) (mask : Int) : DecodeState :=
  let time_error := s.time_error * (1 / 2)
  let mid := (s.start + s.stop) * (1 / 2)
  if Int.land cd mask = 0 then
    { start := s.start, stop := mid, time_error := time_error }
  else
    { start := mid, stop := s.stop, time_error := time_error }

/-- The body of `for (int i = 0; i < hash_code.size(); i++)`. -/
def decode_symbol (s : DecodeState) (c : Char) : DecodeState :=
  let cd := CHAR_TO_IDX c
  MASK_ARR.foldl (decode_body cd) s

/-- `time_hash time_hash::decode_exactly(const string& hash_code)`. -/
def decode_exactly (hash_code : List Char) : TimeHash.time_hash :=
  let s := hash_code.foldl decode_symbol
    { start := TIME_INTERVAL_START
      stop := TIME_INTERVAL_END
      time_error := (TIME_INTERVAL_START + TIME_INTERVAL_END) * (1 / 2) }
  let time_val := (s.start + s.stop) * (1 / 2)
  { hash_code := hash_code, center := time_val, error := s.time_error }

/-- The read `NEIGHBOR_MAP[idx][col]`; `none` when an index is outside the array
`char[8][2]` (undefined behaviour in C++). -/
def neighbor_at (idx : Int) (col : Nat) : Option Char :=
  if 0 ≤ idx ∧ idx < 8 then (NEIGHBOR_MAP.getD idx.toNat []).get? col else none

/-- The loop of `time_hash::before` (`cmp = '0'`, `fill = 'f'`, `col = 0`) and of
`time_hash::after` (`cmp = 'f'`, `fill = '0'`, `col = 1`) over the characters
`reversed[j], ...` still to visit, `i` being the local `i`: the flag `succeeded`
and the contents of `ret`. -/
def neighbor_scan (hash_code : List Char) (cmp fill : Char) (col : Nat) :
    List Char → Nat → Option (Bool × List Char)
  | [], _ => some (false, [])
  | c :: rest, i =>
    if c ≠ cmp then
      let padding := List.replicate (i - 1) fill
      let pos := hash_code.length - i
      match neighbor_at (CHAR_TO_IDX c) col with
      | none => none
      | some nb => some (true, hash_code.take pos ++ [nb] ++ padding)
    else
      neighbor_scan hash_code cmp fill col rest (i + 1)

/-- `string time_hash::before(const string& hash_code)`: the string returned,
`succeeded ? ret.str() : hash_code`. -/
def before (hash_code : List Char) : Option (List Char) :=
  (neighbor_scan hash_code '0' 'f' 0 hash_code.reverse 1).map
    fun r => if r.1 then r.2 else hash_code

/-- `string time_hash::after(const string& hash_code)`: the string returned,
`succeeded ? ret.str() : hash_code`. -/
def after (hash_code : List Char) : Option (List Char) :=
  (neighbor_scan hash_code 'f' '0' 1 hash_code.reverse 1).map
    fun r => if r.1 then r.2 else hash_code

end time_hash

/-! ## Binary64 arithmetic (`double` with round to nearest, ties to even)

A finite non-negative `double` is represented by its value counted in units of
`2^-1074`, the spacing of the smallest doubles, so that every such `double` is a
natural number; a signed one is an integer. -/

/-- The `double` `1.0`, in units of `2^-1074`. -/
def F64_ONE : Nat := 1 <<< 1074

/-- One step of the search for the bit length of `n`: the shift `s` grows by `k`
when `n` still has more than 53 bits after dropping `s + k` of them. -/
def f64_excess_step (n s k : Nat) : Nat :=
  if 2 ^ 53 ≤ n >>> (s + k) then s + k else s

/-- The number of low bits a `double` cannot keep of `n ≥ 2^53`: the bit length of
`n` less 53, found by binary search (the bit length of a sum of doubles is below
2100). -/
def f64_excess (n : Nat) : Nat :=
  [2048, 1024, 512, 256, 128, 64, 32, 16, 8, 4, 2, 1].foldl (f64_excess_step n) 0 + 1

/-- The `double` nearest to the real number of `n` units, ties to the even
significand. Overflow to infinity, which needs a value of `2^1024` or more, is
not modelled. -/
def f64_round (n : Nat) : Nat :=
  if n < 2 ^ 53 then n
  else
    let shift := f64_excess n
    let q := n >>> shift
    let r := n - (q <<< shift)
    let half := (1 <<< shift) / 2
    if r < half then q <<< shift
    else if half < r then (q + 1) <<< shift
    else if q % 2 = 0 then q <<< shift
    else (q + 1) <<< shift

/-- The `double` `x * 0.5` for a `double` `x` of `n` units: exact when `n` is even,
and for an odd `n` (a subnormal) the tie between the two neighbours goes to the
even one. -/
def f64_half (n : Nat) : Nat :=
  if n % 2 = 0 then n / 2 else if (n / 2) % 2 = 0 then n / 2 else n / 2 + 1

/-- The `double` `(a + b) * 0.5`: the sum is rounded, then halved. -/
def f64_mid (a b : Nat) : Nat := f64_half (f64_round (a + b))

/-- The rational value of a `double` given in units of `2^-1074`. -/
def f64_val (n : Int) : ℚ := (n : ℚ) / 2 ^ 1074

/-- `TIME_INTERVAL_START_TH` as a `double`. -/
def TIME_INTERVAL_START_F64 : Nat := 0

/-- `TIME_INTERVAL_END_TH` as a `double`: `4039372800.0`. -/
def TIME_INTERVAL_END_F64 : Nat := 4039372800 <<< 1074

/-! ## The decoder in binary64 (`time_hash.c` lines 72-111) -/

/-- The locals `start`, `end` (here `stop`) and `time_error` of
`decode_exactly_time_hash` as doubles; none of them is ever negative. -/
structure DecodeState64 where
  start : Nat
  stop : Nat
  time_error : Nat
  deriving DecidableEq

/-- The body of `for (int j = 0; j < 3; j++)` in binary64, for the mask
`MASK_ARR_TH[j]`. -/
def decode_bit_f64 (cd : Int) (s : DecodeState64) (mask : Int) : DecodeState64 :=
  let time_error := f64_half s.time_error
  let mid := f64_mid s.start s.stop
  if Int.land cd mask = 0 then
    { start := s.start, stop := mid, time_error := time_error }
  else
    { start := mid, stop := s.stop, time_error := time_error }

/-- The body of `for (int i = 0; i < len; i++)` in binary64. -/
def decode_char_f64 (s : DecodeState64) (c : Char) : DecodeState64 :=
  let cd := CHAR_TO_IDX c
  MASK_ARR_TH.foldl (decode_bit_f64 cd) s

/-- The state of `decode_exactly_time_hash` before its loop, in binary64. -/
def decode_init_f64 : DecodeState64 :=
  { start := TIME_INTERVAL_START_F64
    stop := TIME_INTERVAL_END_F64
    time_error := f64_mid TIME_INTERVAL_START_F64 TIME_INTERVAL_END_F64 }

/-- The state of `decode_exactly_time_hash` after its loop, in binary64. -/
def decode_loop_f64 (hash_code : List Char) : DecodeState64 :=
  hash_code.foldl decode_char_f64 decode_init_f64

/-- `struct time_hash` with its two doubles in units of `2^-1074`. -/
structure time_hash_f64 where
  hash_code : List Char
  center : Nat
  error : Nat
  deriving DecidableEq

/-- `decode_exactly_time_hash` in binary64: the return code and the struct behind
`th` after the call. -/
def decode_exactly_time_hash_f64 (hash_code : Option (List Char))
    (th : Option time_hash_f64) : Int × Option time_hash_f64 :=
  match hash_code with
  | none => (-1, th)
  | some h =>
    match th with
    | none => (-2, none)
    | some _ =>
      let s := decode_loop_f64 h
      let time_val := f64_mid s.start s.stop
      (0, some { hash_code := h, center := time_val, error := s.time_error })

/-- `decode_time_hash` in binary64; the failure value is the double `-1.0`. -/
def decode_time_hash_f64 (hash_code : Option (List Char)) : Int :=
  match decode_exactly_time_hash_f64 hash_code
      (some { hash_code := [], center := 0, error := 0 }) with
  | (0, some th) => (th.center : Int)
  | _ => -(F64_ONE : Int)

/-! ## The encoder in binary64 (`time_hash.c` lines 36-70) -/

/-- The locals of `encode_time_hash` with `start` and `end` (here `stop`) as
doubles, which are never negative, and the output buffer. -/
structure EncodeState64 where
  start : Nat
  stop : Nat
  thlen : Int
  bit : Nat
  ch : Int
  buffer : List Char
  deriving DecidableEq

/-- One iteration of the body of `while (thlen < precision)` in binary64; the
`double epoch_time` is an integer number of units. -/
def encode_step_f64 (epoch_time : Int) (s : EncodeState64) : EncodeState64 :=
  let mid := f64_mid s.start s.stop
  let s1 : EncodeState64 :=
    if epoch_time > (mid : Int) then
      { s with ch := Int.lor s.ch (MASK_ARR_TH.getD s.bit 0), start := mid }
    else
      { s with stop := mid }
  if s1.bit < 2 then
    { s1 with bit := s1.bit + 1 }
  else
    { s1 with
      buffer := s1.buffer.set s1.thlen.toNat (BASE32_TH.getD s1.ch.toNat NUL)
      thlen := s1.thlen + 1
      bit := 0
      ch := 0 }

/-- The loop `while (thlen < precision) body` in binary64, run for at most `fuel`
iterations; `none` when the guard still holds after `fuel` iterations. -/
def encode_loop_f64 (epoch_time : Int) (precision : Int) :
    Nat → EncodeState64 → Option EncodeState64
  | 0, s => if s.thlen < precision then none else some s
  | fuel + 1, s =>
    if s.thlen < precision then
      encode_loop_f64 epoch_time precision fuel (encode_step_f64 epoch_time s)
    else some s

/-- `encode_time_hash` in binary64: the return code and the buffer after the call.
The loop is given `3 * precision` iterations of fuel. -/
def encode_time_hash_f64 (epoch_time : Int) (precision : Int) (buffer : Option (List Char)) :
    Option (Int × Option (List Char)) :=
  if precision ≤ 0 then some (-1, buffer)
  else
    match buffer with
    | none => some (-2, none)
    | some b =>
      if (b.length : Int) ≠ precision then some (-3, some b)
      else
        (encode_loop_f64 epoch_time precision (3 * precision.toNat)
          { start := TIME_INTERVAL_START_F64, stop := TIME_INTERVAL_END_F64,
            thlen := 0, bit := 0, ch := 0, buffer := b }).map
          fun s => (0, some s.buffer)

/-! ## Specification-level notions used to state the properties -/

/-- The alphabet: a character is a symbol when it occurs in `BASE32_TH`. -/
def is_symbol (c : Char) : Prop := c ∈ BASE32_TH

instance (c : Char) : Decidable (is_symbol c) := by
  unfold is_symbol; infer_instance

/-- A hash is valid when each of its characters is a symbol. -/
def valid_hash (h : List Char) : Prop := ∀ c ∈ h, is_symbol c

instance (h : List Char) : Decidable (valid_hash h) := by
  unfold valid_hash; infer_instance

/-- The code of a symbol: its position in the alphabet `01abcdef`
(`8` for a character outside it). -/
def symbol_code (c : Char) : Nat := BASE32_TH.indexOf c

/-- Strict lexicographic order on hashes, characters compared by alphabet position. -/
def lex_lt : List Char → List Char → Bool
  | [], [] => false
  | [], _ :: _ => true
  | _ :: _, [] => false
  | a :: as, b :: bs =>
    decide (symbol_code a < symbol_code b) ||
      (decide (symbol_code a = symbol_code b) && lex_lt as bs)

/-- Lexicographic order on hashes: equal, or strictly before. -/
def lex_le (h1 h2 : List Char) : Bool := decide (h1 = h2) || lex_lt h1 h2

/-- The value of a hash read as a base-8 number, most significant digit first. -/
def hash_value : List Char → Nat
  | [] => 0
  | c :: cs => symbol_code c * 8 ^ cs.length + hash_value cs

/-- One bisection of `encode_time_hash` on the triple (code so far, start, end). -/
def bisect1 (t : ℚ) (mask : Int) (s : Int × ℚ × ℚ) : Int × ℚ × ℚ :=
  if t > (s.2.1 + s.2.2) * (1 / 2) then (Int.lor s.1 mask, (s.2.1 + s.2.2) * (1 / 2), s.2.2)
  else (s.1, s.2.1, (s.2.1 + s.2.2) * (1 / 2))

/-- Three bisections from `[lo, hi]`: the 3-bit code and the interval reached. -/
def bisect3 (t lo hi : ℚ) : Int × ℚ × ℚ :=
  bisect1 t 1 (bisect1 t 2 (bisect1 t 4 (0, lo, hi)))

/-- The characters `encode_time_hash` emits in `n` rounds of three bisections
starting from `[lo, hi]`. -/
def encode_chars (t : ℚ) : ℚ → ℚ → Nat → List Char
  | _, _, 0 => []
  | lo, hi, n + 1 =>
    BASE32_TH.getD (bisect3 t lo hi).1.toNat NUL ::
      encode_chars t (bisect3 t lo hi).2.1 (bisect3 t lo hi).2.2 n

/-- The table `NEIGHBOR_MAP_TH` once `init_time_hash` has run on the zeroed array. -/
def NEIGHBOR_MAP_TH : List (List Char) := init_time_hash NEIGHBOR_MAP_TH_zero

/-- `BEFORE[c]`: the entry of `BEFORE_TH` at the alphabet position of `c`. -/
def symbol_before (c : Char) : Char := BEFORE_TH.getD (symbol_code c) NUL

/-- `AFTER[c]`: the entry of `AFTER_TH` at the alphabet position of `c`. -/
def symbol_after (c : Char) : Char := AFTER_TH.getD (symbol_code c) NUL

/-! ## Notions relating the binary64 reading to the exact one -/

/-- The width `4039372800 / 2^j` of the interval after `j` bisections, in units
of `2^-1074`; `4039372800 = 986175 * 2^12`. -/
def f64_cell (j : Nat) : Nat := 986175 * 2 ^ (1086 - j)

/-- The interval `[a, b]` of doubles is one of the `2^j` cells after `j` exact
bisections of the time domain. -/
def is_cell (j a b : Nat) : Prop :=
  ∃ x, x < 2 ^ j ∧ a = x * f64_cell j ∧ b = (x + 1) * f64_cell j

/-- The state of the binary64 decoder is the exact one after `j` bisections. -/
def decode_exact (j : Nat) (s : DecodeState64) : Prop :=
  is_cell j s.start s.stop ∧ s.time_error = 986175 * 2 ^ (1085 - j)

/-- The exact-reading state whose fields are the values of the doubles of `s`. -/
def decode_state_val (s : DecodeState64) : DecodeState :=
  { start := f64_val s.start, stop := f64_val s.stop, time_error := f64_val s.time_error }

/-- The exact-reading state whose fields are the values of the doubles of `s`. -/
def encode_state_val (s : EncodeState64) : EncodeState :=
  { start := f64_val s.start, stop := f64_val s.stop, thlen := s.thlen, bit := s.bit,
    ch := s.ch, buffer := s.buffer }

/-- The spacing of the doubles in `[2^31, 2^32)`, in units of `2^-1074`. -/
def F64_STEP : Nat := 2 ^ 1053

/-- The interval `[a, b]` of doubles lies in the time domain and is, after `k`
bisections, still wide: `b - a ≥ (4039372800 + step) / 2^k - step`. -/
def is_wide (k a b : Nat) : Prop :=
  a ≤ b ∧ b ≤ TIME_INTERVAL_END_F64 ∧
    TIME_INTERVAL_END_F64 + F64_STEP ≤ (b - a + F64_STEP) * 2 ^ k

/-! ## Lemmas on `encode_time_hash` -/

theorem bisect1_cases (t : ℚ) (mask c : Int) (lo hi : ℚ) :
    (t ≤ (lo + hi) * (1 / 2) ∧ bisect1 t mask (c, lo, hi) = (c, lo, (lo + hi) * (1 / 2))) ∨
    ((lo + hi) * (1 / 2) < t ∧
      bisect1 t mask (c, lo, hi) = (Int.lor c mask, (lo + hi) * (1 / 2), hi)) := by
  unfold bisect1
  dsimp only
  split_ifs with h
  · right; exact ⟨h, rfl⟩
  · left; exact ⟨not_lt.mp h, rfl⟩

/-- Three bisections select the eighth `k` of `[lo, hi]`, with `t` above its lower
end unless `k = 0` and at or below its upper end unless `k = 7`. -/
theorem bisect3_spec (t lo hi : ℚ) :
    ∃ k : Nat, k < 8 ∧
      bisect3 t lo hi =
        ((k : Int), lo + (k : ℚ) * ((hi - lo) / 8), lo + ((k : ℚ) + 1) * ((hi - lo) / 8)) ∧
      (0 < k → lo + (k : ℚ) * ((hi - lo) / 8) < t) ∧
      (k < 7 → t ≤ lo + ((k : ℚ) + 1) * ((hi - lo) / 8)) := by
  unfold bisect3
  rcases bisect1_cases t 4 (0) (lo) (hi) with ⟨c4, h⟩ | ⟨c4, h⟩ <;> rw [h]
  · rcases bisect1_cases t 2 (0) (lo) (((lo + hi) * (1 / 2))) with ⟨c2, h⟩ | ⟨c2, h⟩ <;> rw [h]
    · rcases bisect1_cases t 1 (0) (lo) (((lo + ((lo + hi) * (1 / 2))) * (1 / 2))) with ⟨c1, h⟩ | ⟨c1, h⟩ <;> rw [h]
      · refine ⟨0, by decide, congrArg₂ Prod.mk (by decide) (congrArg₂ Prod.mk (by push_cast; ring) (by push_cast; ring)), ?_, ?_⟩
        · intro h0; exact absurd h0 (by decide)
        · intro _; push_cast; linarith
      · refine ⟨1, by decide, congrArg₂ Prod.mk (by decide) (congrArg₂ Prod.mk (by push_cast; ring) (by push_cast; ring)), ?_, ?_⟩
        · intro _; push_cast; linarith
        · intro _; push_cast; linarith
    · rcases bisect1_cases t 1 (Int.lor (0) 2) (((lo + ((lo + hi) * (1 / 2))) * (1 / 2))) (((lo + hi) * (1 / 2))) with ⟨c1, h⟩ | ⟨c1, h⟩ <;> rw [h]
      · refine ⟨2, by decide, congrArg₂ Prod.mk (by decide) (congrArg₂ Prod.mk (by push_cast; ring) (by push_cast; ring)), ?_, ?_⟩
        · intro _; push_cast; linarith
        · intro _; push_cast; linarith
      · refine ⟨3, by decide, congrArg₂ Prod.mk (by decide) (congrArg₂ Prod.mk (by push_cast; ring) (by push_cast; ring)), ?_, ?_⟩
        · intro _; push_cast; linarith
        · intro _; push_cast; linarith
  · rcases bisect1_cases t 2 (Int.lor (0) 4) (((lo + hi) * (1 / 2))) (hi) with ⟨c2, h⟩ | ⟨c2, h⟩ <;> rw [h]
    · rcases bisect1_cases t 1 (Int.lor (0) 4) (((lo + hi) * (1 / 2))) (((((lo + hi) * (1 / 2)) + hi) * (1 / 2))) with ⟨c1, h⟩ | ⟨c1, h⟩ <;> rw [h]
      · refine ⟨4, by decide, congrArg₂ Prod.mk (by decide) (congrArg₂ Prod.mk (by push_cast; ring) (by push_cast; ring)), ?_, ?_⟩
        · intro _; push_cast; linarith
        · intro _; push_cast; linarith
      · refine ⟨5, by decide, congrArg₂ Prod.mk (by decide) (congrArg₂ Prod.mk (by push_cast; ring) (by push_cast; ring)), ?_, ?_⟩
        · intro _; push_cast; linarith
        · intro _; push_cast; linarith
    · rcases bisect1_cases t 1 (Int.lor (Int.lor (0) 4) 2) (((((lo + hi) * (1 / 2)) + hi) * (1 / 2))) (hi) with ⟨c1, h⟩ | ⟨c1, h⟩ <;> rw [h]
      · refine ⟨6, by decide, congrArg₂ Prod.mk (by decide) (congrArg₂ Prod.mk (by push_cast; ring) (by push_cast; ring)), ?_, ?_⟩
        · intro _; push_cast; linarith
        · intro _; push_cast; linarith
      · refine ⟨7, by decide, congrArg₂ Prod.mk (by decide) (congrArg₂ Prod.mk (by push_cast; ring) (by push_cast; ring)), ?_, ?_⟩
        · intro _; push_cast; linarith
        · intro h7; exact absurd h7 (by decide)

theorem encode_step_bit0 (t lo hi : ℚ) (n : Int) (buf : List Char) :
    encode_step t ⟨lo, hi, n, 0, 0, buf⟩ =
      ⟨(bisect1 t 4 (0, lo, hi)).2.1, (bisect1 t 4 (0, lo, hi)).2.2, n, 1,
        (bisect1 t 4 (0, lo, hi)).1, buf⟩ := by
  unfold encode_step bisect1
  dsimp only
  split_ifs with h1 h2 h2 <;> first | rfl | (exfalso; dsimp only at h2; omega)

theorem encode_step_bit1 (t lo hi : ℚ) (n c : Int) (buf : List Char) :
    encode_step t ⟨lo, hi, n, 1, c, buf⟩ =
      ⟨(bisect1 t 2 (c, lo, hi)).2.1, (bisect1 t 2 (c, lo, hi)).2.2, n, 2,
        (bisect1 t 2 (c, lo, hi)).1, buf⟩ := by
  unfold encode_step bisect1
  dsimp only
  split_ifs with h1 h2 h2 <;> first | rfl | (exfalso; dsimp only at h2; omega)

theorem encode_step_bit2 (t lo hi : ℚ) (n c : Int) (buf : List Char) :
    encode_step t ⟨lo, hi, n, 2, c, buf⟩ =
      ⟨(bisect1 t 1 (c, lo, hi)).2.1, (bisect1 t 1 (c, lo, hi)).2.2, n + 1, 0, 0,
        buf.set n.toNat (BASE32_TH.getD (bisect1 t 1 (c, lo, hi)).1.toNat NUL)⟩ := by
  unfold encode_step bisect1
  dsimp only
  split_ifs with h1 h2 h2 <;> first | rfl | (exfalso; dsimp only at h2; omega)

/-- Three iterations of the loop body from a character boundary emit one character. -/
theorem encode_step3 (t lo hi : ℚ) (n : Int) (buf : List Char) :
    encode_step t (encode_step t (encode_step t ⟨lo, hi, n, 0, 0, buf⟩)) =
      ⟨(bisect3 t lo hi).2.1, (bisect3 t lo hi).2.2, n + 1, 0, 0,
        buf.set n.toNat (BASE32_TH.getD (bisect3 t lo hi).1.toNat NUL)⟩ := by
  rw [encode_step_bit0, encode_step_bit1, encode_step_bit2]
  rfl

/-- Three guarded iterations of the loop from a character boundary. -/
theorem encode_loop_three (t : ℚ) (p : Int) (fuel : Nat) (lo hi : ℚ) (n : Int)
    (buf : List Char) (hn : n < p) :
    encode_loop t p (fuel + 1 + 1 + 1) ⟨lo, hi, n, 0, 0, buf⟩ =
      encode_loop t p fuel
        ⟨(bisect3 t lo hi).2.1, (bisect3 t lo hi).2.2, n + 1, 0, 0,
          buf.set n.toNat (BASE32_TH.getD (bisect3 t lo hi).1.toNat NUL)⟩ := by
  rw [← encode_step3]
  have e1 : (encode_step t ⟨lo, hi, n, 0, 0, buf⟩).thlen = n := by
    rw [encode_step_bit0]
  have e2 : (encode_step t (encode_step t ⟨lo, hi, n, 0, 0, buf⟩)).thlen = n := by
    rw [encode_step_bit0, encode_step_bit1]
  rw [encode_loop, if_pos (by exact hn), encode_loop, if_pos (by rw [e1]; exact hn),
    encode_loop, if_pos (by rw [e2]; exact hn)]

/-- With `3 * k` iterations of fuel the loop fills the next `k` buffer positions
and stops. -/
theorem encode_loop_chars (t : ℚ) (p : Int) :
    ∀ (k : Nat) (lo hi : ℚ) (done todo : List Char),
      (done.length : Int) + k = p → k ≤ todo.length →
      (encode_loop t p (3 * k) ⟨lo, hi, done.length, 0, 0, done ++ todo⟩).map
          (fun s => s.buffer) =
        some (done ++ encode_chars t lo hi k ++ todo.drop k) := by
  intro k
  induction k with
  | zero =>
    intro lo hi done todo hp _
    have hge : ¬ ((done.length : Int) < p) := by omega
    simp [encode_loop, hge, encode_chars]
  | succ k ih =>
    intro lo hi done todo hp hk
    cases todo with
    | nil => simp at hk
    | cons x todo =>
      have hlt : (done.length : Int) < p := by omega
      have h3 : 3 * (k + 1) = 3 * k + 1 + 1 + 1 := by ring
      rw [h3, encode_loop_three t p (3 * k) lo hi _ _ hlt]
      have hset : (done ++ x :: todo).set (done.length : Int).toNat
          (BASE32_TH.getD (bisect3 t lo hi).1.toNat NUL) =
          (done ++ [BASE32_TH.getD (bisect3 t lo hi).1.toNat NUL]) ++ todo := by
        simp
      have hlen : (done.length : Int) + 1 =
          ((done ++ [BASE32_TH.getD (bisect3 t lo hi).1.toNat NUL]).length : Int) := by
        simp
      rw [hset, hlen, ih _ _ _ _ (by simp; omega) (by simpa using hk)]
      simp [encode_chars]

/-- What `encode_time_hash` returns for a positive precision and a buffer of that
length: code `0` and the characters of `encode_chars`. -/
theorem encode_time_hash_eq (t : ℚ) (p : Int) (b : List Char) (hp : 0 < p)
    (hb : (b.length : Int) = p) :
    encode_time_hash t p (some b) =
      some (0, some (encode_chars t TIME_INTERVAL_START_TH TIME_INTERVAL_END_TH p.toNat)) := by
  unfold encode_time_hash
  rw [if_neg (by omega)]
  dsimp only
  rw [if_neg (by simpa using hb)]
  have h := encode_loop_chars t p p.toNat TIME_INTERVAL_START_TH TIME_INTERVAL_END_TH [] b
    (by simp; omega) (by omega)
  simp only [List.length_nil, Nat.cast_zero, List.nil_append] at h
  have hd : b.drop p.toNat = [] := List.drop_eq_nil_of_le (by omega)
  rw [hd, List.append_nil] at h
  cases hloop : encode_loop t p (3 * p.toNat)
      { start := TIME_INTERVAL_START_TH, stop := TIME_INTERVAL_END_TH,
        thlen := 0, bit := 0, ch := 0, buffer := b } with
  | none => rw [hloop] at h; simp at h
  | some s =>
    rw [hloop] at h
    simp only [Option.map_some', Option.some.injEq] at h
    simp [h]

/-! ## Lemmas on the alphabet -/

theorem symbol_of_code (k : Nat) (hk : k < 8) :
    is_symbol (BASE32_TH.getD k NUL) ∧ symbol_code (BASE32_TH.getD k NUL) = k ∧
      CHAR_TO_IDX (BASE32_TH.getD k NUL) = (k : Int) := by
  interval_cases k <;> decide

theorem symbol_cases (c : Char) (h : is_symbol c) :
    c = '0' ∨ c = '1' ∨ c = 'a' ∨ c = 'b' ∨ c = 'c' ∨ c = 'd' ∨ c = 'e' ∨ c = 'f' := by
  simpa [is_symbol, BASE32_TH] using h

theorem code_of_symbol (c : Char) (h : is_symbol c) :
    symbol_code c < 8 ∧ CHAR_TO_IDX c = (symbol_code c : Int) ∧
      BASE32_TH.getD (symbol_code c) NUL = c := by
  rcases symbol_cases c h with h | h | h | h | h | h | h | h <;> subst h <;> decide

/-! ## Lemmas on `decode_exactly_time_hash` -/

/-- Decoding one symbol of code `k` moves to the eighth `k` of the interval and
divides the error by eight. -/
theorem decode_char_spec (s : DecodeState) (c : Char) (k : Nat) (hk : k < 8)
    (hc : CHAR_TO_IDX c = (k : Int)) :
    decode_char s c =
      ⟨s.start + (k : ℚ) * ((s.stop - s.start) / 8),
        s.start + ((k : ℚ) + 1) * ((s.stop - s.start) / 8), s.time_error / 8⟩ := by
  unfold decode_char
  rw [hc]
  interval_cases k <;> simp +decide [decode_bit, MASK_ARR_TH] <;>
    constructorm* _ ∧ _ <;> ring

theorem decode_bit_width (cd : Int) (s : DecodeState) (mask : Int) :
    (decode_bit cd s mask).stop - (decode_bit cd s mask).start = (s.stop - s.start) / 2 ∧
      (decode_bit cd s mask).time_error = s.time_error / 2 := by
  unfold decode_bit
  dsimp only
  split_ifs <;> constructor <;> ring

/-- Whatever the character, one round of the decoder divides the width of the
interval and the error by eight. -/
theorem decode_char_width (s : DecodeState) (c : Char) :
    (decode_char s c).stop - (decode_char s c).start = (s.stop - s.start) / 8 ∧
      (decode_char s c).time_error = s.time_error / 8 := by
  unfold decode_char
  simp only [MASK_ARR_TH, List.foldl]
  obtain ⟨w1, e1⟩ := decode_bit_width (CHAR_TO_IDX c) s 4
  obtain ⟨w2, e2⟩ := decode_bit_width (CHAR_TO_IDX c) (decode_bit (CHAR_TO_IDX c) s 4) 2
  obtain ⟨w3, e3⟩ := decode_bit_width (CHAR_TO_IDX c)
    (decode_bit (CHAR_TO_IDX c) (decode_bit (CHAR_TO_IDX c) s 4) 2) 1
  constructor
  · rw [w3, w2, w1]; ring
  · rw [e3, e2, e1]; ring

theorem decode_fold_width :
    ∀ (h : List Char) (s : DecodeState),
      (h.foldl decode_char s).stop - (h.foldl decode_char s).start =
          (s.stop - s.start) / 8 ^ h.length ∧
        (h.foldl decode_char s).time_error = s.time_error / 8 ^ h.length := by
  intro h
  induction h with
  | nil => intro s; simp
  | cons c cs ih =>
    intro s
    obtain ⟨w, e⟩ := decode_char_width s c
    obtain ⟨w2, e2⟩ := ih (decode_char s c)
    simp only [List.foldl_cons, List.length_cons]
    refine ⟨?_, ?_⟩
    · rw [w2, w, pow_succ]; ring
    · rw [e2, e, pow_succ]; ring

/-- Closed form of the decoder's loop on a valid hash, from any state. -/
theorem decode_fold_spec :
    ∀ (h : List Char) (s : DecodeState), valid_hash h →
      h.foldl decode_char s =
        ⟨s.start + (hash_value h : ℚ) * ((s.stop - s.start) / 8 ^ h.length),
          s.start + ((hash_value h : ℚ) + 1) * ((s.stop - s.start) / 8 ^ h.length),
          s.time_error / 8 ^ h.length⟩ := by
  intro h
  induction h with
  | nil => intro s _; cases s; simp [hash_value]
  | cons c cs ih =>
    intro s hv
    have hc : is_symbol c := hv c (List.mem_cons_self c cs)
    have hcs : valid_hash cs := fun x hx => hv x (List.mem_cons_of_mem c hx)
    obtain ⟨hlt, hidx, _⟩ := code_of_symbol c hc
    rw [List.foldl_cons, decode_char_spec s c (symbol_code c) hlt hidx, ih _ hcs]
    simp only [hash_value, List.length_cons, Nat.cast_add, Nat.cast_mul, Nat.cast_pow,
      Nat.cast_ofNat, DecodeState.mk.injEq]
    have h8 : (8 : ℚ) ^ cs.length ≠ 0 := pow_ne_zero _ (by norm_num)
    refine ⟨?_, ?_, ?_⟩
    · rw [pow_succ]; field_simp; ring
    · rw [pow_succ]; field_simp; ring
    · rw [pow_succ]; ring

theorem decode_time_hash_some (h : List Char) :
    decode_time_hash (some h) = ((decode_loop h).start + (decode_loop h).stop) * (1 / 2) := rfl

theorem decode_exactly_time_hash_some (h : List Char) (th0 : time_hash) :
    decode_exactly_time_hash (some h) (some th0) =
      (0, some ⟨h, ((decode_loop h).start + (decode_loop h).stop) * (1 / 2),
        (decode_loop h).time_error⟩) := rfl

theorem two_pow_three_mul (n : Nat) : (2 : ℚ) ^ (3 * n + 1) = 8 ^ n * 2 := by
  rw [pow_succ, pow_mul]
  norm_num

/-- The centre a valid hash decodes to, in terms of its base-8 value. -/
theorem decode_center_closed (h : List Char) (hv : valid_hash h) :
    ((decode_loop h).start + (decode_loop h).stop) * (1 / 2) =
      (2 * (hash_value h : ℚ) + 1) * 4039372800 / 2 ^ (3 * h.length + 1) := by
  unfold decode_loop
  rw [decode_fold_spec h decode_init hv, two_pow_three_mul]
  simp only [decode_init, TIME_INTERVAL_START_TH, TIME_INTERVAL_END_TH]
  have h8 : (8 : ℚ) ^ h.length ≠ 0 := pow_ne_zero _ (by norm_num)
  field_simp
  ring

/-! ## Lemmas on the emitted characters -/

theorem encode_chars_length (t : ℚ) :
    ∀ (n : Nat) (lo hi : ℚ), (encode_chars t lo hi n).length = n := by
  intro n
  induction n with
  | zero => intro lo hi; rfl
  | succ n ih => intro lo hi; simp [encode_chars, ih]

theorem encode_chars_valid (t : ℚ) :
    ∀ (n : Nat) (lo hi : ℚ), valid_hash (encode_chars t lo hi n) := by
  intro n
  induction n with
  | zero => intro lo hi c hc; simp [encode_chars] at hc
  | succ n ih =>
    intro lo hi c hc
    obtain ⟨k, hk, hb, _, _⟩ := bisect3_spec t lo hi
    simp only [encode_chars, List.mem_cons] at hc
    rcases hc with hc | hc
    · rw [hc, hb]
      simpa using (symbol_of_code k hk).1
    · exact ih _ _ c hc

/-- Decoding the characters emitted for `t` from `[lo, hi]` ends in an interval
that still contains `t`. -/
theorem decode_encode_chars (t : ℚ) :
    ∀ (n : Nat) (lo hi e : ℚ), lo ≤ t → t ≤ hi →
      ((encode_chars t lo hi n).foldl decode_char ⟨lo, hi, e⟩).start ≤ t ∧
        t ≤ ((encode_chars t lo hi n).foldl decode_char ⟨lo, hi, e⟩).stop := by
  intro n
  induction n with
  | zero => intro lo hi e h1 h2; exact ⟨h1, h2⟩
  | succ n ih =>
    intro lo hi e h1 h2
    obtain ⟨k, hk, hb, hlo, hhi⟩ := bisect3_spec t lo hi
    obtain ⟨_, _, hidx⟩ := symbol_of_code k hk
    simp only [encode_chars, List.foldl_cons]
    rw [hb]
    simp only [Int.toNat_ofNat]
    rw [decode_char_spec ⟨lo, hi, e⟩ _ k hk hidx]
    apply ih
    · rcases Nat.eq_zero_or_pos k with h0 | h0
      · subst h0; simpa using h1
      · exact le_of_lt (hlo h0)
    · by_cases h7 : k < 7
      · exact hhi h7
      · have hk7 : k = 7 := by omega
        subst hk7
        calc t ≤ hi := h2
          _ = lo + (((7 : ℕ) : ℚ) + 1) * ((hi - lo) / 8) := by push_cast; ring

theorem lex_le_cons_self (c : Char) (a b : List Char) (h : lex_le a b = true) :
    lex_le (c :: a) (c :: b) = true := by
  simp only [lex_le, Bool.or_eq_true, decide_eq_true_eq] at h ⊢
  rcases h with h | h
  · left; rw [h]
  · right; simp [lex_lt, h]

/-- For `t1 ≤ t2` the characters emitted from a common non-degenerate interval
are in lexicographic order. -/
theorem encode_chars_mono (t1 t2 : ℚ) (ht : t1 ≤ t2) :
    ∀ (n : Nat) (lo hi : ℚ), lo < hi →
      lex_le (encode_chars t1 lo hi n) (encode_chars t2 lo hi n) = true := by
  intro n
  induction n with
  | zero => intro lo hi _; simp [lex_le, encode_chars]
  | succ n ih =>
    intro lo hi hw
    obtain ⟨k1, hk1, hb1, hlo1, _⟩ := bisect3_spec t1 lo hi
    obtain ⟨k2, hk2, hb2, _, hhi2⟩ := bisect3_spec t2 lo hi
    have hw8 : 0 < (hi - lo) / 8 := by linarith
    have hle : k1 ≤ k2 := by
      by_contra hcon
      have hlt : k2 + 1 ≤ k1 := by omega
      have hq : ((k2 : ℚ) + 1) ≤ (k1 : ℚ) := by exact_mod_cast hlt
      have h1 := hlo1 (by omega)
      have h2 := hhi2 (by omega)
      have h3 : ((k2 : ℚ) + 1) * ((hi - lo) / 8) ≤ (k1 : ℚ) * ((hi - lo) / 8) :=
        mul_le_mul_of_nonneg_right hq (le_of_lt hw8)
      linarith
    simp only [encode_chars]
    rw [hb1, hb2]
    simp only [Int.toNat_ofNat]
    rcases Nat.lt_or_eq_of_le hle with hlt | heq
    · have e1 := (symbol_of_code k1 hk1).2.1
      have e2 := (symbol_of_code k2 hk2).2.1
      rw [lex_le, lex_lt, e1, e2]
      simp [hlt]
    · subst heq
      apply lex_le_cons_self
      apply ih
      have hk0 : (0 : ℚ) ≤ (k1 : ℚ) := Nat.cast_nonneg k1
      nlinarith

theorem hash_value_lt : ∀ h : List Char, valid_hash h → hash_value h < 8 ^ h.length := by
  intro h
  induction h with
  | nil => intro _; simp [hash_value]
  | cons c cs ih =>
    intro hv
    have hc : symbol_code c < 8 := (code_of_symbol c (hv c (List.mem_cons_self c cs))).1
    have hcs := ih (fun x hx => hv x (List.mem_cons_of_mem c hx))
    simp only [hash_value, List.length_cons, pow_succ]
    nlinarith

/-- On valid hashes of one length, lexicographic order is the order of values. -/
theorem lex_lt_value :
    ∀ h1 h2 : List Char, valid_hash h1 → valid_hash h2 → h1.length = h2.length →
      lex_lt h1 h2 = true → hash_value h1 < hash_value h2 := by
  intro h1
  induction h1 with
  | nil =>
    intro h2 _ _ hl hlt
    cases h2 with
    | nil => simp [lex_lt] at hlt
    | cons b bs => simp at hl
  | cons a as ih =>
    intro h2 hv1 hv2 hl hlt
    cases h2 with
    | nil => simp at hl
    | cons b bs =>
      have hl2 : as.length = bs.length := by simpa using hl
      have hva : valid_hash as := fun x hx => hv1 x (List.mem_cons_of_mem a hx)
      have hvb : valid_hash bs := fun x hx => hv2 x (List.mem_cons_of_mem b hx)
      have ha := hash_value_lt as hva
      simp only [lex_lt, Bool.or_eq_true, Bool.and_eq_true, decide_eq_true_eq] at hlt
      simp only [hash_value, hl2] at ha ⊢
      rcases hlt with hlt | ⟨heq, hrest⟩
      · have : (symbol_code a + 1) * 8 ^ bs.length ≤ symbol_code b * 8 ^ bs.length :=
          Nat.mul_le_mul_right _ hlt
        nlinarith
      · have := ih bs hva hvb hl2 hrest
        rw [heq]
        omega

/-- Among valid hashes of one length, a smaller value decodes to a smaller centre. -/
theorem decode_center_lt (h1 h2 : List Char) (hv1 : valid_hash h1) (hv2 : valid_hash h2)
    (hl : h1.length = h2.length) (hlt : hash_value h1 < hash_value h2) :
    decode_time_hash (some h1) < decode_time_hash (some h2) := by
  rw [decode_time_hash_some, decode_time_hash_some, decode_center_closed h1 hv1,
    decode_center_closed h2 hv2, hl]
  have hq : (hash_value h1 : ℚ) < (hash_value h2 : ℚ) := by exact_mod_cast hlt
  have hpos : (0 : ℚ) < 2 ^ (3 * h2.length + 1) := by positivity
  apply div_lt_div_of_pos_right _ hpos
  linarith

/-! ## Lemmas on neighbour navigation -/

theorem NEIGHBOR_MAP_TH_eq :
    NEIGHBOR_MAP_TH =
      [['f', '1'], ['0', 'a'], ['1', 'b'], ['a', 'c'], ['b', 'd'], ['c', 'e'], ['d', 'f'],
        ['e', '0']] := by
  decide

theorem neighbor_lookup_symbol (c : Char) (hc : is_symbol c) :
    neighbor_lookup NEIGHBOR_MAP_TH (CHAR_TO_IDX c) 0 = some (symbol_before c) ∧
      neighbor_lookup NEIGHBOR_MAP_TH (CHAR_TO_IDX c) 1 = some (symbol_after c) := by
  rcases symbol_cases c hc with h | h | h | h | h | h | h | h <;> subst h <;> decide

theorem fill_loop_append (fill : Char) (pos : Nat) :
    ∀ (l1 l2 : List Nat) (buf : List Char),
      fill_loop fill pos buf (l1 ++ l2) = fill_loop fill pos (fill_loop fill pos buf l1) l2 := by
  intro l1
  induction l1 with
  | nil => intro l2 buf; rfl
  | cons n ns ih => intro l2 buf; rw [List.cons_append, fill_loop, fill_loop, ih]

/-- The filling loop overwrites the `k` positions after `pos`. -/
theorem fill_loop_range (fill x : Char) (pre : List Char) :
    ∀ (k : Nat) (tail : List Char), k ≤ tail.length →
      fill_loop fill pre.length (pre ++ x :: tail) (List.range k) =
        pre ++ x :: (List.replicate k fill ++ tail.drop k) := by
  intro k
  induction k with
  | zero => intro tail _; simp [fill_loop]
  | succ k ih =>
    intro tail hk
    rw [List.range_succ, fill_loop_append, ih tail (by omega)]
    simp only [fill_loop]
    rw [List.set_append_right _ _ (by omega)]
    have e1 : pre.length + k + 1 - pre.length = k + 1 := by omega
    rw [e1, List.set_cons_succ, List.set_append_right _ _ (by simp)]
    have e2 : k - (List.replicate k fill).length = 0 := by simp
    rw [e2, List.drop_eq_getElem_cons (by omega : k < tail.length), List.set_cons_zero,
      List.replicate_succ']
    simp

theorem scan_loop_skip (map : List (List Char)) (h : List Char) (nb : Int) (cmp : Char)
    (rest b : List Char) :
    ∀ (j i : Nat),
      scan_loop map h nb cmp (List.replicate j cmp ++ rest) i b =
        scan_loop map h nb cmp rest (i + j) b := by
  intro j
  induction j with
  | zero => intro i; rfl
  | succ j ih =>
    intro i
    rw [List.replicate_succ, List.cons_append, scan_loop, if_neg (by simp), ih]
    congr 1
    omega

/-- The call on a hash whose rightmost character other than `cmp` is `c`: the
prefix is kept, `c` becomes the table entry `x` and the tail is filled. -/
theorem before_or_after_th_hit (map : List (List Char)) (nb : Int) (cmp fill x c : Char)
    (pre b : List Char) (k : Nat)
    (hcmp : (if nb = 0 then '0' else 'f') = cmp) (hfill : (if nb = 0 then 'f' else '0') = fill)
    (hne : c ≠ cmp) (hx : neighbor_lookup map (CHAR_TO_IDX c) nb = some x)
    (hb : b.length = pre.length + 1 + k) :
    before_or_after_th map (some (pre ++ c :: List.replicate k cmp)) (some b) nb =
      some (0, some (pre ++ x :: List.replicate k fill)) := by
  have hlen : (pre ++ c :: List.replicate k cmp).length = pre.length + 1 + k := by
    simp; omega
  unfold before_or_after_th
  dsimp only
  rw [if_neg (by rw [hlen, hb]; simp), hcmp]
  have hrev : (pre ++ c :: List.replicate k cmp).reverse =
      List.replicate k cmp ++ c :: pre.reverse := by
    simp
  rw [hrev, scan_loop_skip, scan_loop, if_pos hne]
  dsimp only
  rw [hx, hlen, hfill]
  dsimp only
  have hpos : pre.length + 1 + k - (1 + k) = pre.length := by omega
  have hk : 1 + k - 1 = k := by omega
  rw [hpos, hk, List.take_left, List.drop_eq_getElem_cons (by omega : pre.length < b.length),
    List.set_append_right _ _ (le_refl _), Nat.sub_self, List.set_cons_zero,
    fill_loop_range fill x pre k _ (by simp; omega)]
  have hd : List.drop k (List.drop (pre.length + 1) b) = [] :=
    List.drop_eq_nil_of_le (by simp; omega)
  rw [hd, List.append_nil]
  rfl

/-- A list with a character other than `x` splits at its rightmost such character. -/
theorem split_rightmost (x : Char) :
    ∀ l : List Char, (∃ c ∈ l, c ≠ x) →
      ∃ (pre : List Char) (c : Char) (k : Nat), l = pre ++ c :: List.replicate k x ∧ c ≠ x := by
  intro l
  induction l with
  | nil => intro h; obtain ⟨c, hc, _⟩ := h; simp at hc
  | cons a l ih =>
    intro _
    by_cases hl : ∃ c ∈ l, c ≠ x
    · obtain ⟨pre, c, k, he, hne⟩ := ih hl
      exact ⟨a :: pre, c, k, by rw [he]; rfl, hne⟩
    · have hall : ∀ c ∈ l, c = x := by
        intro c hc
        by_contra hcx
        exact hl ⟨c, hc, hcx⟩
      have hrep : l = List.replicate l.length x := List.eq_replicate_of_mem hall
      by_cases ha : a = x
      · exfalso
        rename_i h
        obtain ⟨c, hc, hcx⟩ := h
        rcases List.mem_cons.mp hc with h1 | h1
        · exact hcx (h1.trans ha)
        · exact hcx (hall c h1)
      · exact ⟨[], a, l.length, by rw [List.nil_append, ← hrep], ha⟩

theorem hash_value_append :
    ∀ (a b : List Char), hash_value (a ++ b) = hash_value a * 8 ^ b.length + hash_value b := by
  intro a
  induction a with
  | nil => intro b; simp [hash_value]
  | cons c cs ih =>
    intro b
    rw [List.cons_append, hash_value, hash_value, ih, List.length_append, pow_add]
    ring

theorem hash_value_replicate_zero (k : Nat) : hash_value (List.replicate k '0') = 0 := by
  induction k with
  | zero => rfl
  | succ k ih =>
    rw [List.replicate_succ, hash_value, ih]
    have : symbol_code '0' = 0 := by decide
    rw [this]; simp

theorem hash_value_replicate_f (k : Nat) : hash_value (List.replicate k 'f') + 1 = 8 ^ k := by
  induction k with
  | zero => rfl
  | succ k ih =>
    have : symbol_code 'f' = 7 := by decide
    rw [List.replicate_succ, hash_value, this, List.length_replicate, pow_succ]
    omega

theorem symbol_before_spec (c : Char) (hc : is_symbol c) (hne : c ≠ '0') :
    is_symbol (symbol_before c) ∧ symbol_code (symbol_before c) + 1 = symbol_code c ∧
      symbol_before c ≠ 'f' ∧ symbol_after (symbol_before c) = c := by
  rcases symbol_cases c hc with h | h | h | h | h | h | h | h <;> subst h <;>
    first | exact absurd rfl hne | decide

theorem symbol_after_spec (c : Char) (hc : is_symbol c) (hne : c ≠ 'f') :
    is_symbol (symbol_after c) ∧ symbol_code (symbol_after c) = symbol_code c + 1 ∧
      symbol_after c ≠ '0' ∧ symbol_before (symbol_after c) = c := by
  rcases symbol_cases c hc with h | h | h | h | h | h | h | h <;> subst h <;>
    first | exact absurd rfl hne | decide

/-- Replacing `c` followed by zeros with the symbol one below followed by `f`s
lowers the base-8 value by exactly one. -/
theorem hash_value_borrow (pre : List Char) (c d : Char) (k : Nat)
    (hcd : symbol_code d + 1 = symbol_code c) :
    hash_value (pre ++ d :: List.replicate k 'f') + 1 =
      hash_value (pre ++ c :: List.replicate k '0') := by
  rw [hash_value_append, hash_value_append, hash_value, hash_value,
    hash_value_replicate_zero, ← hcd]
  have hf := hash_value_replicate_f k
  simp only [List.length_cons, List.length_replicate]
  nlinarith

theorem valid_hash_rebuild (pre : List Char) (c d x y : Char) (k : Nat)
    (hv : valid_hash (pre ++ c :: List.replicate k x)) (hd : is_symbol d) (hy : is_symbol y) :
    valid_hash (pre ++ d :: List.replicate k y) := by
  intro a ha
  rcases List.mem_append.mp ha with h1 | h1
  · exact hv a (List.mem_append_left _ h1)
  · rcases List.mem_cons.mp h1 with h2 | h2
    · rw [h2]; exact hd
    · rw [List.eq_of_mem_replicate h2]; exact hy

/-- What `before_time_hash` writes for a valid hash with a character other than `0`. -/
theorem before_time_hash_spec (h b : List Char) (hv : valid_hash h)
    (hb : b.length = h.length) (h0 : ∃ c ∈ h, c ≠ '0') :
    ∃ (pre : List Char) (c : Char) (k : Nat),
      h = pre ++ c :: List.replicate k '0' ∧ c ≠ '0' ∧ is_symbol c ∧
        before_time_hash NEIGHBOR_MAP_TH (some h) (some b) =
          some (0, some (pre ++ symbol_before c :: List.replicate k 'f')) := by
  obtain ⟨pre, c, k, he, hne⟩ := split_rightmost '0' h h0
  have hc : is_symbol c := hv c (by rw [he]; simp)
  refine ⟨pre, c, k, he, hne, hc, ?_⟩
  rw [he]
  exact before_or_after_th_hit NEIGHBOR_MAP_TH 0 '0' 'f' (symbol_before c) c pre b k rfl rfl
    hne (neighbor_lookup_symbol c hc).1 (by rw [hb, he]; simp; omega)

/-- What `after_time_hash` writes for a valid hash with a character other than `f`. -/
theorem after_time_hash_spec (h b : List Char) (hv : valid_hash h)
    (hb : b.length = h.length) (hf : ∃ c ∈ h, c ≠ 'f') :
    ∃ (pre : List Char) (c : Char) (k : Nat),
      h = pre ++ c :: List.replicate k 'f' ∧ c ≠ 'f' ∧ is_symbol c ∧
        after_time_hash NEIGHBOR_MAP_TH (some h) (some b) =
          some (0, some (pre ++ symbol_after c :: List.replicate k '0')) := by
  obtain ⟨pre, c, k, he, hne⟩ := split_rightmost 'f' h hf
  have hc : is_symbol c := hv c (by rw [he]; simp)
  refine ⟨pre, c, k, he, hne, hc, ?_⟩
  rw [he]
  exact before_or_after_th_hit NEIGHBOR_MAP_TH 1 'f' '0' (symbol_after c) c pre b k rfl rfl
    hne (neighbor_lookup_symbol c hc).2 (by rw [hb, he]; simp; omega)

theorem scan_loop_all (map : List (List Char)) (h : List Char) (nb : Int) (cmp : Char)
    (b : List Char) (j i : Nat) :
    scan_loop map h nb cmp (List.replicate j cmp) i b = some (-4, b) := by
  have e := scan_loop_skip map h nb cmp [] b j i
  rw [List.append_nil] at e
  rw [e]
  rfl

/-- On a hash made of the character `cmp` alone the call fails and leaves the
buffer as it was. -/
theorem before_or_after_th_boundary (map : List (List Char)) (nb : Int) (cmp : Char)
    (h : List Char) (buffer : Option (List Char))
    (hcmp : (if nb = 0 then '0' else 'f') = cmp) (hall : ∀ c ∈ h, c = cmp) :
    ∃ code : Int, before_or_after_th map (some h) buffer nb = some (code, buffer) ∧
      code ≠ 0 ∧ (∀ b, buffer = some b → b.length = h.length → code = -4) := by
  cases buffer with
  | none => exact ⟨-2, rfl, by decide, fun b hb => by cases hb⟩
  | some b =>
    by_cases hlen : h.length = b.length
    · refine ⟨-4, ?_, by decide, fun _ _ _ => rfl⟩
      unfold before_or_after_th
      dsimp only
      rw [if_neg (by simpa using hlen), hcmp, List.eq_replicate_of_mem hall,
        List.reverse_replicate, scan_loop_all]
      rfl
    · refine ⟨-3, ?_, by decide, fun b2 hb2 hl => ?_⟩
      · unfold before_or_after_th
        dsimp only
        rw [if_pos hlen]
      · cases hb2
        exact absurd hl.symm hlen

theorem string_find_none (c : Char) : string_find BASE32 c = none ↔ c ∉ BASE32 := by
  unfold string_find
  dsimp only
  rw [← List.indexOf_lt_length]
  split_ifs with h <;> simp [h]

/-! ## Lemmas on the C++ codec -/

theorem cpp_encode_body_bit0 (t lo hi : ℚ) (done : List Char) :
    time_hash.encode_body t ⟨lo, hi, done, 0, 0⟩ =
      ⟨(bisect1 t 4 (0, lo, hi)).2.1, (bisect1 t 4 (0, lo, hi)).2.2, done, 1,
        (bisect1 t 4 (0, lo, hi)).1⟩ := by
  unfold time_hash.encode_body bisect1
  dsimp only
  split_ifs with h1 h2 h2 <;> first | rfl | (exfalso; dsimp only at h2; omega)

theorem cpp_encode_body_bit1 (t lo hi : ℚ) (c : Int) (done : List Char) :
    time_hash.encode_body t ⟨lo, hi, done, 1, c⟩ =
      ⟨(bisect1 t 2 (c, lo, hi)).2.1, (bisect1 t 2 (c, lo, hi)).2.2, done, 2,
        (bisect1 t 2 (c, lo, hi)).1⟩ := by
  unfold time_hash.encode_body bisect1
  dsimp only
  split_ifs with h1 h2 h2 <;> first | rfl | (exfalso; dsimp only at h2; omega)

theorem cpp_encode_body_bit2 (t lo hi : ℚ) (c : Int) (done : List Char) :
    time_hash.encode_body t ⟨lo, hi, done, 2, c⟩ =
      ⟨(bisect1 t 1 (c, lo, hi)).2.1, (bisect1 t 1 (c, lo, hi)).2.2,
        done ++ [BASE32_TH.getD (bisect1 t 1 (c, lo, hi)).1.toNat NUL], 0, 0⟩ := by
  unfold time_hash.encode_body bisect1
  dsimp only
  split_ifs with h1 h2 h2 <;> first | rfl | (exfalso; dsimp only at h2; omega)

/-- Three guarded iterations of the C++ loop from a character boundary append one
character. -/
theorem cpp_encode_while_three (t : ℚ) (p : Int) (fuel : Nat) (lo hi : ℚ)
    (done : List Char) (hn : (done.length : Int) < time_hash.size_of_int p) :
    time_hash.encode_while t p (fuel + 1 + 1 + 1) ⟨lo, hi, done, 0, 0⟩ =
      time_hash.encode_while t p fuel
        ⟨(bisect3 t lo hi).2.1, (bisect3 t lo hi).2.2,
          done ++ [BASE32_TH.getD (bisect3 t lo hi).1.toNat NUL], 0, 0⟩ := by
  rw [time_hash.encode_while, if_pos (by exact hn), cpp_encode_body_bit0,
    time_hash.encode_while, if_pos (by exact hn), cpp_encode_body_bit1,
    time_hash.encode_while, if_pos (by exact hn), cpp_encode_body_bit2]
  rfl

/-- With `3 * k` iterations of fuel the C++ loop appends `k` characters and stops. -/
theorem cpp_encode_while_chars (t : ℚ) (p : Int) :
    ∀ (k : Nat) (lo hi : ℚ) (done : List Char),
      (done.length : Int) + k = time_hash.size_of_int p →
      (time_hash.encode_while t p (3 * k) ⟨lo, hi, done, 0, 0⟩).map (fun s => s.timehash) =
        some (done ++ encode_chars t lo hi k) := by
  intro k
  induction k with
  | zero =>
    intro lo hi done hp
    have hge : ¬ ((done.length : Int) < time_hash.size_of_int p) := by omega
    simp [time_hash.encode_while, hge, encode_chars]
  | succ k ih =>
    intro lo hi done hp
    have hlt : (done.length : Int) < time_hash.size_of_int p := by omega
    have h3 : 3 * (k + 1) = 3 * k + 1 + 1 + 1 := by ring
    rw [h3, cpp_encode_while_three t p (3 * k) lo hi done hlt,
      ih _ _ _ (by simp only [List.length_append, List.length_singleton]; push_cast; omega)]
    simp [encode_chars]

/-- What `time_hash::encode` returns for a precision in `0 .. INT_MAX`: the
characters of `encode_chars`, as `encode_time_hash` writes them. -/
theorem cpp_encode_eq (t : ℚ) (p : Int) (hp : 0 ≤ p) (hmax : p ≤ 2147483647) :
    time_hash.encode t p =
      some (encode_chars t TIME_INTERVAL_START_TH TIME_INTERVAL_END_TH p.toNat) := by
  have hs : time_hash.size_of_int p = p := by
    unfold time_hash.size_of_int
    exact Int.emod_eq_of_lt hp (by norm_num; omega)
  unfold time_hash.encode
  rw [hs]
  have h := cpp_encode_while_chars t p p.toNat TIME_INTERVAL_START_TH TIME_INTERVAL_END_TH []
    (by rw [hs]; simp; omega)
  rw [List.nil_append] at h
  exact h

/-- The C++ decoder computes what the C decoder computes. -/
theorem cpp_decode_exactly_eq (h : List Char) :
    time_hash.decode_exactly h =
      ⟨h, ((decode_loop h).start + (decode_loop h).stop) * (1 / 2),
        (decode_loop h).time_error⟩ := rfl

/-! ## Further lemmas on the bisection -/

/-- Decoding the characters emitted for `t` from `(lo, hi]` ends in an interval
that is open at the bottom, closed at the top, and contains `t`. -/
theorem decode_encode_chars_strict (t : ℚ) :
    ∀ (n : Nat) (lo hi e : ℚ), lo < t → t ≤ hi →
      ((encode_chars t lo hi n).foldl decode_char ⟨lo, hi, e⟩).start < t ∧
        t ≤ ((encode_chars t lo hi n).foldl decode_char ⟨lo, hi, e⟩).stop := by
  intro n
  induction n with
  | zero => intro lo hi e h1 h2; exact ⟨h1, h2⟩
  | succ n ih =>
    intro lo hi e h1 h2
    obtain ⟨k, hk, hb, hlo, hhi⟩ := bisect3_spec t lo hi
    obtain ⟨_, _, hidx⟩ := symbol_of_code k hk
    simp only [encode_chars, List.foldl_cons]
    rw [hb]
    simp only [Int.toNat_ofNat]
    rw [decode_char_spec ⟨lo, hi, e⟩ _ k hk hidx]
    apply ih
    · rcases Nat.eq_zero_or_pos k with h0 | h0
      · subst h0; simpa using h1
      · exact hlo h0
    · by_cases h7 : k < 7
      · exact hhi h7
      · have hk7 : k = 7 := by omega
        subst hk7
        calc t ≤ hi := h2
          _ = lo + (((7 : ℕ) : ℚ) + 1) * ((hi - lo) / 8) := by push_cast; ring

/-- The centre and error returned for any string span the final interval. -/
theorem decode_loop_center_error (h : List Char) :
    ((decode_loop h).start + (decode_loop h).stop) * (1 / 2) - (decode_loop h).time_error =
        (decode_loop h).start ∧
      ((decode_loop h).start + (decode_loop h).stop) * (1 / 2) + (decode_loop h).time_error =
        (decode_loop h).stop := by
  have hw := (decode_fold_width h decode_init).1
  have he := (decode_fold_width h decode_init).2
  have h2 : (decode_loop h).stop - (decode_loop h).start = 2 * (decode_loop h).time_error := by
    unfold decode_loop
    rw [hw, he]
    simp only [decode_init, TIME_INTERVAL_START_TH, TIME_INTERVAL_END_TH]
    ring
  constructor <;> linarith

/-- A timestamp strictly inside the cell of a valid hash is encoded to that hash. -/
theorem encode_chars_cell (t : ℚ) :
    ∀ (h : List Char) (lo hi : ℚ), valid_hash h → lo < hi →
      lo + (hash_value h : ℚ) * ((hi - lo) / 8 ^ h.length) < t →
      t < lo + ((hash_value h : ℚ) + 1) * ((hi - lo) / 8 ^ h.length) →
      encode_chars t lo hi h.length = h := by
  intro h
  induction h with
  | nil => intro lo hi _ _ _ _; rfl
  | cons c cs ih =>
    intro lo hi hv hw h1 h2
    have hc : is_symbol c := hv c (List.mem_cons_self c cs)
    have hcs : valid_hash cs := fun x hx => hv x (List.mem_cons_of_mem c hx)
    obtain ⟨hlt, _, hget⟩ := code_of_symbol c hc
    have hvl := hash_value_lt cs hcs
    have hvq : (hash_value cs : ℚ) + 1 ≤ 8 ^ cs.length := by exact_mod_cast hvl
    have hv0 : (0 : ℚ) ≤ (hash_value cs : ℚ) := Nat.cast_nonneg _
    have h8 : (0 : ℚ) < 8 ^ cs.length := by positivity
    have hw8 : 0 < (hi - lo) / 8 := by linarith
    have hu : 0 < (hi - lo) / 8 / 8 ^ cs.length := div_pos hw8 h8
    have hu1 : (hi - lo) / 8 / 8 ^ cs.length * 8 ^ cs.length = (hi - lo) / 8 := by
      field_simp
      ring
    have hcell : (hi - lo) / 8 ^ (c :: cs).length = (hi - lo) / 8 / 8 ^ cs.length := by
      rw [List.length_cons, pow_succ, div_div, mul_comm]
    simp only [hash_value] at h1 h2
    rw [hcell] at h1 h2
    push_cast at h1 h2
    have hlo' : lo + (symbol_code c : ℚ) * ((hi - lo) / 8) +
        (hash_value cs : ℚ) * ((hi - lo) / 8 / 8 ^ cs.length) < t := by
      have e : (symbol_code c : ℚ) * ((hi - lo) / 8) =
          (symbol_code c : ℚ) * 8 ^ cs.length * ((hi - lo) / 8 / 8 ^ cs.length) := by
        rw [mul_assoc, mul_comm ((8 : ℚ) ^ cs.length), hu1]
      rw [e]; linarith
    have hhi' : t < lo + (symbol_code c : ℚ) * ((hi - lo) / 8) +
        ((hash_value cs : ℚ) + 1) * ((hi - lo) / 8 / 8 ^ cs.length) := by
      have e : (symbol_code c : ℚ) * ((hi - lo) / 8) =
          (symbol_code c : ℚ) * 8 ^ cs.length * ((hi - lo) / 8 / 8 ^ cs.length) := by
        rw [mul_assoc, mul_comm ((8 : ℚ) ^ cs.length), hu1]
      rw [e]; linarith
    have hin1 : lo + (symbol_code c : ℚ) * ((hi - lo) / 8) < t := by
      have : 0 ≤ (hash_value cs : ℚ) * ((hi - lo) / 8 / 8 ^ cs.length) :=
        mul_nonneg hv0 (le_of_lt hu)
      linarith
    have hin2 : t < lo + ((symbol_code c : ℚ) + 1) * ((hi - lo) / 8) := by
      have : ((hash_value cs : ℚ) + 1) * ((hi - lo) / 8 / 8 ^ cs.length) ≤
          8 ^ cs.length * ((hi - lo) / 8 / 8 ^ cs.length) :=
        mul_le_mul_of_nonneg_right hvq (le_of_lt hu)
      have e2 : (8 : ℚ) ^ cs.length * ((hi - lo) / 8 / 8 ^ cs.length) = (hi - lo) / 8 := by
        rw [mul_comm, hu1]
      linarith
    obtain ⟨k, hk, hb, hklo, hkhi⟩ := bisect3_spec t lo hi
    have hkc : k = symbol_code c := by
      rcases Nat.lt_trichotomy k (symbol_code c) with hlt2 | heq | hgt
      · exfalso
        have hq : (k : ℚ) + 1 ≤ (symbol_code c : ℚ) := by exact_mod_cast hlt2
        have := hkhi (by omega)
        have := mul_le_mul_of_nonneg_right hq (le_of_lt hw8)
        linarith
      · exact heq
      · exfalso
        have hq : (symbol_code c : ℚ) + 1 ≤ (k : ℚ) := by exact_mod_cast hgt
        have := hklo (by omega)
        have := mul_le_mul_of_nonneg_right hq (le_of_lt hw8)
        linarith
    rw [List.length_cons, encode_chars, hb]
    simp only [Int.toNat_ofNat]
    rw [hkc, hget]
    congr 1
    have hwid : lo + ((symbol_code c : ℚ) + 1) * ((hi - lo) / 8) -
        (lo + (symbol_code c : ℚ) * ((hi - lo) / 8)) = (hi - lo) / 8 := by ring
    apply ih _ _ hcs (by linarith)
    · rw [hwid]; exact hlo'
    · rw [hwid]; exact hhi'

/-- The characters emitted for a precision are the first ones emitted for any
larger precision. -/
theorem encode_chars_prefix (t : ℚ) :
    ∀ (p q : Nat) (lo hi : ℚ), p ≤ q →
      encode_chars t lo hi p <+: encode_chars t lo hi q := by
  intro p
  induction p with
  | zero => intro q lo hi _; exact List.nil_prefix
  | succ p ih =>
    intro q lo hi hpq
    cases q with
    | zero => omega
    | succ q =>
      rw [encode_chars, encode_chars, List.prefix_cons_inj]
      exact ih q _ _ (by omega)

/-- The scan of the C++ navigator on a string made of `cmp` alone does not succeed. -/
theorem cpp_neighbor_scan_all (h : List Char) (cmp fill : Char) (col : Nat) :
    ∀ (j i : Nat),
      time_hash.neighbor_scan h cmp fill col (List.replicate j cmp) i = some (false, []) := by
  intro j
  induction j with
  | zero => intro i; rfl
  | succ j ih =>
    intro i
    rw [List.replicate_succ, time_hash.neighbor_scan, if_neg (by simp), ih]

/-- The first character alone decides `validate_time_hash` when it is `0`. -/
theorem validate_time_hash_first (rest : List Char) :
    validate_time_hash (some ('0' :: rest)) = some 0 := by
  unfold validate_time_hash
  dsimp only
  rw [List.length_cons, validate_outer, List.range_succ_eq_map, validate_inner]
  rfl

/-- The timestamp at the first bisection midpoint is encoded to the lower half. -/
theorem encode_chars_midpoint :
    encode_chars 2019686400 TIME_INTERVAL_START_TH TIME_INTERVAL_END_TH 1 = ['b'] := by
  simp only [encode_chars, bisect3, bisect1, TIME_INTERVAL_START_TH, TIME_INTERVAL_END_TH]
  norm_num
  decide

theorem f64_excess_fold_ge (n : Nat) :
    ∀ (l : List Nat) (s : Nat), 2 ^ 53 ≤ n >>> s →
      2 ^ 53 ≤ n >>> (l.foldl (f64_excess_step n) s) := by
  intro l
  induction l with
  | nil => intro s h; exact h
  | cons k ks ih =>
    intro s h
    rw [List.foldl_cons]
    apply ih
    unfold f64_excess_step
    split_ifs with hk
    · exact hk
    · exact h

/-- A number with at most 53 significant bits is its own rounding. -/
theorem f64_round_exact (m k : Nat) (hm : m < 2 ^ 53) : f64_round (m * 2 ^ k) = m * 2 ^ k := by
  by_cases hn : m * 2 ^ k < 2 ^ 53
  · unfold f64_round
    rw [if_pos hn]
  · obtain ⟨s, hs⟩ : ∃ s, f64_excess (m * 2 ^ k) = s + 1 := ⟨_, rfl⟩
    have hge : 2 ^ 53 ≤ (m * 2 ^ k) >>> s := by
      have h0 := f64_excess_fold_ge (m * 2 ^ k)
        [2048, 1024, 512, 256, 128, 64, 32, 16, 8, 4, 2, 1] 0 (by simpa using not_lt.mp hn)
      have : s = [2048, 1024, 512, 256, 128, 64, 32, 16, 8, 4, 2, 1].foldl
          (f64_excess_step (m * 2 ^ k)) 0 := by
        unfold f64_excess at hs
        omega
      rw [this]
      exact h0
    have hsk : s < k := by
      by_contra hcon
      have hks : k ≤ s := not_lt.mp hcon
      rw [Nat.shiftRight_eq_div_pow] at hge
      have h1 : m * 2 ^ k / 2 ^ s ≤ m * 2 ^ k / 2 ^ k :=
        Nat.div_le_div_left (Nat.pow_le_pow_right (by norm_num) hks) (by positivity)
      rw [Nat.mul_div_cancel _ (by positivity)] at h1
      omega
    have hsplit : m * 2 ^ k = (m * 2 ^ (k - (s + 1))) * 2 ^ (s + 1) := by
      rw [mul_assoc, ← pow_add]
      congr 2
      omega
    have hq : (m * 2 ^ k) >>> (s + 1) = m * 2 ^ (k - (s + 1)) := by
      rw [Nat.shiftRight_eq_div_pow]
      conv_lhs => rw [hsplit]
      exact Nat.mul_div_cancel _ (by positivity)
    unfold f64_round
    rw [if_neg hn]
    simp only [hs, hq, Nat.shiftLeft_eq, ← hsplit, Nat.sub_self, one_mul]
    have hhalf : 0 < 2 ^ (s + 1) / 2 := by
      rw [pow_succ, Nat.mul_div_cancel _ (by norm_num)]
      positivity
    rw [if_pos hhalf]

theorem f64_half_even (n : Nat) (h : n % 2 = 0) : f64_half n = n / 2 := by
  unfold f64_half
  rw [if_pos h]

/-- The midpoint of two doubles whose sum has at most 53 significant bits and is
even is computed exactly. -/
theorem f64_mid_exact (a b m k : Nat) (h : a + b = m * 2 ^ (k + 1)) (hm : m < 2 ^ 53) :
    f64_mid a b = m * 2 ^ k := by
  unfold f64_mid
  rw [h, f64_round_exact m (k + 1) hm, pow_succ, ← mul_assoc,
    f64_half_even _ (Nat.mul_mod_left _ _), Nat.mul_div_cancel _ (by norm_num)]

theorem TIME_INTERVAL_END_F64_eq : TIME_INTERVAL_END_F64 = 986175 * 2 ^ 1086 := by
  norm_num [TIME_INTERVAL_END_F64, Nat.shiftLeft_eq]

theorem f64_val_nat_lt (a b : Int) : f64_val a < f64_val b ↔ a < b := by
  unfold f64_val
  rw [div_lt_div_iff_of_pos_right (by positivity)]
  exact_mod_cast Iff.rfl

theorem f64_val_nat_le (a b : Int) : f64_val a ≤ f64_val b ↔ a ≤ b := by
  unfold f64_val
  rw [div_le_div_iff_of_pos_right (by positivity)]
  exact_mod_cast Iff.rfl

theorem f64_val_add (a b : Int) : f64_val (a + b) = f64_val a + f64_val b := by
  unfold f64_val
  push_cast
  ring

theorem f64_val_sub (a b : Int) : f64_val (a - b) = f64_val a - f64_val b := by
  unfold f64_val
  push_cast
  ring

/-- The width of a cell after `j` bisections, `4039372800 / 2^j`, in units of
`2^-1074`. -/
theorem f64_cell_halves (j : Nat) (hj : j ≤ 1085) : f64_cell j = f64_cell (j + 1) * 2 := by
  unfold f64_cell
  rw [mul_assoc, ← pow_succ]
  congr 2
  omega

/-- Up to 33 bisections the binary64 midpoint of a cell is exact. -/
theorem f64_mid_cell (j x : Nat) (hj : j ≤ 32) (hx : x < 2 ^ j) :
    f64_mid (x * f64_cell j) ((x + 1) * f64_cell j) = (2 * x + 1) * f64_cell (j + 1) := by
  have hm : (2 * x + 1) * 986175 < 2 ^ 53 := by
    have h1 : 2 * x + 1 < 2 ^ 33 := by
      have : 2 ^ j ≤ 2 ^ 32 := Nat.pow_le_pow_right (by norm_num) hj
      omega
    calc (2 * x + 1) * 986175 < 2 ^ 33 * 2 ^ 20 := by
          apply Nat.mul_lt_mul'' h1
          norm_num
      _ = 2 ^ 53 := by norm_num
  have hsum : x * f64_cell j + (x + 1) * f64_cell j =
      ((2 * x + 1) * 986175) * 2 ^ ((1086 - (j + 1)) + 1) := by
    have e : 1086 - (j + 1) + 1 = 1086 - j := by omega
    rw [e]
    unfold f64_cell
    ring
  rw [f64_mid_exact _ _ _ _ hsum hm]
  unfold f64_cell
  ring

theorem f64_val_cell (j x : Nat) (hj : j ≤ 1086) :
    f64_val ((x * f64_cell j : Nat) : Int) = (x : ℚ) * (4039372800 / 2 ^ j) := by
  unfold f64_val f64_cell
  have hp : (2 : ℚ) ^ 1074 ≠ 0 := by positivity
  have hj2 : (2 : ℚ) ^ j ≠ 0 := by positivity
  have e2 : (2 : ℚ) ^ (1086 - j) * 2 ^ j = 2 ^ 12 * 2 ^ 1074 := by
    rw [← pow_add, ← pow_add]
    congr 1
    omega
  push_cast
  rw [div_eq_iff hp, mul_assoc, div_mul_eq_mul_div]
  congr 1
  rw [eq_div_iff hj2]
  calc (986175 : ℚ) * 2 ^ (1086 - j) * 2 ^ j
      = 986175 * (2 ^ (1086 - j) * 2 ^ j) := by ring
    _ = 986175 * (2 ^ 12 * 2 ^ 1074) := by rw [e2]
    _ = 4039372800 * 2 ^ 1074 := by ring

/-- Up to 33 bisections the binary64 midpoint of a cell is the exact midpoint and
splits the cell into two cells. -/
theorem is_cell_mid (j a b : Nat) (hj : j ≤ 32) (h : is_cell j a b) :
    is_cell (j + 1) a (f64_mid a b) ∧ is_cell (j + 1) (f64_mid a b) b ∧
      f64_val (f64_mid a b) = (f64_val a + f64_val b) * (1 / 2) := by
  obtain ⟨x, hx, ha, hb⟩ := h
  have hmid : f64_mid a b = (2 * x + 1) * f64_cell (j + 1) := by
    rw [ha, hb]; exact f64_mid_cell j x hj hx
  have hc := f64_cell_halves j (by omega)
  have hx2 : 2 * x + 1 < 2 ^ (j + 1) := by rw [pow_succ]; omega
  refine ⟨⟨2 * x, by omega, ?_, ?_⟩, ⟨2 * x + 1, hx2, ?_, ?_⟩, ?_⟩
  · rw [ha, hc]; ring
  · rw [hmid]
  · rw [hmid]
  · rw [hb, hc]; ring
  · have hsum : a + b = 2 * f64_mid a b := by
      rw [hmid, ha, hb, hc]; ring
    have hq : ((a : Int) : ℚ) + ((b : Int) : ℚ) = 2 * ((f64_mid a b : Int) : ℚ) := by
      exact_mod_cast hsum
    unfold f64_val
    rw [← add_div, hq]
    ring

theorem f64_half_error (k : Nat) :
    f64_half (986175 * 2 ^ (k + 1)) = 986175 * 2 ^ k ∧
      f64_val ((986175 * 2 ^ k : Nat) : Int) =
        f64_val ((986175 * 2 ^ (k + 1) : Nat) : Int) * (1 / 2) := by
  constructor
  · rw [pow_succ, ← mul_assoc, f64_half_even _ (Nat.mul_mod_left _ _),
      Nat.mul_div_cancel _ (by norm_num)]
  · unfold f64_val
    push_cast
    rw [pow_succ]
    ring

/-- One binary64 bisection of the decoder, within the first 33, is the exact one. -/
theorem decode_bit_f64_exact (cd mask : Int) (j : Nat) (s : DecodeState64) (hj : j ≤ 32)
    (h : decode_exact j s) :
    decode_exact (j + 1) (decode_bit_f64 cd s mask) ∧
      decode_state_val (decode_bit_f64 cd s mask) = decode_bit cd (decode_state_val s) mask := by
  obtain ⟨hcell, herr⟩ := h
  obtain ⟨hl, hr, hv⟩ := is_cell_mid j s.start s.stop hj hcell
  have he : 1085 - j = (1085 - (j + 1)) + 1 := by omega
  have hh := f64_half_error (1085 - (j + 1))
  rw [← he] at hh
  unfold decode_bit_f64 decode_bit decode_state_val decode_exact
  dsimp only
  split_ifs with hc
  · refine ⟨⟨hl, ?_⟩, ?_⟩
    · rw [herr]; exact hh.1
    · rw [hv, herr, hh.1, hh.2]
  · refine ⟨⟨hr, ?_⟩, ?_⟩
    · rw [herr]; exact hh.1
    · rw [hv, herr, hh.1, hh.2]

theorem decode_char_f64_exact (c : Char) (j : Nat) (s : DecodeState64) (hj : j + 3 ≤ 33)
    (h : decode_exact j s) :
    decode_exact (j + 3) (decode_char_f64 s c) ∧
      decode_state_val (decode_char_f64 s c) = decode_char (decode_state_val s) c := by
  unfold decode_char_f64 decode_char
  simp only [MASK_ARR_TH, List.foldl]
  obtain ⟨h1, e1⟩ := decode_bit_f64_exact (CHAR_TO_IDX c) 4 j s (by omega) h
  obtain ⟨h2, e2⟩ := decode_bit_f64_exact (CHAR_TO_IDX c) 2 (j + 1) _ (by omega) h1
  obtain ⟨h3, e3⟩ := decode_bit_f64_exact (CHAR_TO_IDX c) 1 (j + 1 + 1) _ (by omega) h2
  exact ⟨h3, by rw [e3, e2, e1]⟩

theorem decode_fold_f64_exact :
    ∀ (h : List Char) (j : Nat) (s : DecodeState64), j + 3 * h.length ≤ 33 →
      decode_exact j s →
      decode_exact (j + 3 * h.length) (h.foldl decode_char_f64 s) ∧
        decode_state_val (h.foldl decode_char_f64 s) =
          h.foldl decode_char (decode_state_val s) := by
  intro h
  induction h with
  | nil => intro j s _ hs; exact ⟨hs, rfl⟩
  | cons c cs ih =>
    intro j s hj hs
    rw [List.length_cons] at hj
    obtain ⟨h1, e1⟩ := decode_char_f64_exact c j s (by omega) hs
    obtain ⟨h2, e2⟩ := ih (j + 3) _ (by omega) h1
    rw [List.foldl_cons, List.foldl_cons, List.length_cons]
    have e : j + 3 * (cs.length + 1) = j + 3 + 3 * cs.length := by ring
    rw [e]
    exact ⟨h2, by rw [e2, e1]⟩

theorem f64_cell_zero : f64_cell 0 = 986175 * 2 ^ 1086 := by
  unfold f64_cell
  rw [Nat.sub_zero]

theorem f64_cell_one : f64_cell 1 = 986175 * 2 ^ 1085 := by
  unfold f64_cell
  have e : 1086 - 1 = 1085 := rfl
  rw [e]

theorem is_cell_domain : is_cell 0 TIME_INTERVAL_START_F64 TIME_INTERVAL_END_F64 := by
  refine ⟨0, by norm_num, ?_, ?_⟩
  · rw [zero_mul]; rfl
  · rw [zero_add, one_mul, f64_cell_zero, TIME_INTERVAL_END_F64_eq]

theorem f64_val_start :
    f64_val ((TIME_INTERVAL_START_F64 : Nat) : Int) = TIME_INTERVAL_START_TH := by
  unfold f64_val TIME_INTERVAL_START_F64 TIME_INTERVAL_START_TH
  rw [Nat.cast_zero, Int.cast_zero, zero_div]

theorem f64_val_end : f64_val ((TIME_INTERVAL_END_F64 : Nat) : Int) = TIME_INTERVAL_END_TH := by
  have h := f64_val_cell 0 1 (by omega)
  have e : 1 * f64_cell 0 = TIME_INTERVAL_END_F64 := by
    rw [one_mul, f64_cell_zero, TIME_INTERVAL_END_F64_eq]
  rw [e, Nat.cast_one, one_mul, pow_zero, div_one] at h
  exact h

theorem f64_mid_domain :
    f64_mid TIME_INTERVAL_START_F64 TIME_INTERVAL_END_F64 = 986175 * 2 ^ 1085 := by
  have hstart : TIME_INTERVAL_START_F64 = 0 * f64_cell 0 := by
    rw [zero_mul]; rfl
  have hstop : TIME_INTERVAL_END_F64 = (0 + 1) * f64_cell 0 := by
    rw [zero_add, one_mul, f64_cell_zero, TIME_INTERVAL_END_F64_eq]
  have h := f64_mid_cell 0 0 (by omega) (by norm_num)
  rw [← hstart, ← hstop] at h
  rw [h, mul_zero, zero_add, one_mul]
  exact f64_cell_one

theorem decode_init_f64_exact :
    decode_exact 0 decode_init_f64 ∧ decode_state_val decode_init_f64 = decode_init := by
  obtain ⟨_, _, hv⟩ := is_cell_mid 0 _ _ (by omega) is_cell_domain
  refine ⟨⟨is_cell_domain, ?_⟩, ?_⟩
  · show f64_mid TIME_INTERVAL_START_F64 TIME_INTERVAL_END_F64 = 986175 * 2 ^ (1085 - 0)
    rw [Nat.sub_zero]
    exact f64_mid_domain
  · unfold decode_state_val decode_init_f64 decode_init
    dsimp only
    rw [hv, f64_val_start, f64_val_end]

/-- On a hash of at most 11 characters the binary64 decoder's loop computes the
exact state. -/
theorem decode_loop_f64_exact (h : List Char) (hn : h.length ≤ 11) :
    decode_exact (3 * h.length) (decode_loop_f64 h) ∧
      decode_state_val (decode_loop_f64 h) = decode_loop h := by
  obtain ⟨h0, e0⟩ := decode_init_f64_exact
  obtain ⟨h1, e1⟩ := decode_fold_f64_exact h 0 decode_init_f64 (by omega) h0
  rw [zero_add] at h1
  unfold decode_loop_f64 decode_loop
  exact ⟨h1, by rw [e1, e0]⟩

/-- On a hash of at most 10 characters the binary64 centre is the exact centre. -/
theorem decode_center_f64_exact (h : List Char) (hn : h.length ≤ 10) :
    f64_val (f64_mid (decode_loop_f64 h).start (decode_loop_f64 h).stop) =
      ((decode_loop h).start + (decode_loop h).stop) * (1 / 2) := by
  obtain ⟨⟨hcell, _⟩, hv⟩ := decode_loop_f64_exact h (by omega)
  obtain ⟨_, _, hm⟩ := is_cell_mid (3 * h.length) _ _ (by omega) hcell
  rw [hm, ← hv]
  rfl

theorem decode_char_f64_error (s : DecodeState64) (c : Char) :
    (decode_char_f64 s c).time_error = f64_half (f64_half (f64_half s.time_error)) := by
  have hb : ∀ (cd mask : Int) (u : DecodeState64),
      (decode_bit_f64 cd u mask).time_error = f64_half u.time_error := by
    intro cd mask u
    unfold decode_bit_f64
    dsimp only
    split_ifs <;> rfl
  unfold decode_char_f64
  simp only [MASK_ARR_TH, List.foldl]
  rw [hb, hb, hb]

theorem decode_fold_f64_error :
    ∀ (h : List Char) (k : Nat) (s : DecodeState64),
      s.time_error = 986175 * 2 ^ (k + 3 * h.length) →
      (h.foldl decode_char_f64 s).time_error = 986175 * 2 ^ k := by
  intro h
  induction h with
  | nil => intro k s hs; simpa using hs
  | cons c cs ih =>
    intro k s hs
    rw [List.foldl_cons]
    apply ih
    rw [decode_char_f64_error, hs, List.length_cons]
    have e : k + 3 * (cs.length + 1) = (k + 3 * cs.length) + 1 + 1 + 1 := by ring
    rw [e, (f64_half_error _).1, (f64_half_error _).1, (f64_half_error _).1]

/-- On a hash of at most 361 characters the binary64 error is exactly
`4039372800 / 2^(3n+1)`. -/
theorem decode_error_f64_exact (h : List Char) (hn : h.length ≤ 361) :
    f64_val ((decode_loop_f64 h).time_error : Nat) = 4039372800 / 2 ^ (3 * h.length + 1) := by
  have he : (decode_loop_f64 h).time_error = 986175 * 2 ^ (1085 - 3 * h.length) := by
    unfold decode_loop_f64
    apply decode_fold_f64_error
    have e : 1085 - 3 * h.length + 3 * h.length = 1085 := by omega
    rw [e]
    exact f64_mid_domain
  have hc : 986175 * 2 ^ (1085 - 3 * h.length) = 1 * f64_cell (3 * h.length + 1) := by
    rw [one_mul]
    unfold f64_cell
    congr 2
    omega
  rw [he, hc, f64_val_cell _ 1 (by omega), Nat.cast_one, one_mul]

/-- One binary64 iteration of the encoder's loop, within the first 33, is the
exact one. -/
theorem encode_step_f64_exact (t : Int) (j : Nat) (s : EncodeState64) (hj : j ≤ 32)
    (h : is_cell j s.start s.stop) :
    is_cell (j + 1) (encode_step_f64 t s).start (encode_step_f64 t s).stop ∧
      encode_state_val (encode_step_f64 t s) = encode_step (f64_val t) (encode_state_val s) := by
  obtain ⟨hl, hr, hv⟩ := is_cell_mid j s.start s.stop hj h
  have hcmp : t > ((f64_mid s.start s.stop : Nat) : Int) ↔
      f64_val t > (f64_val s.start + f64_val s.stop) * (1 / 2) := by
    rw [← hv]
    exact (f64_val_nat_lt _ _).symm
  unfold encode_step_f64 encode_step encode_state_val
  dsimp only
  by_cases hc : t > ((f64_mid s.start s.stop : Nat) : Int)
  · rw [if_pos hc, if_pos (hcmp.mp hc)]
    dsimp only
    split_ifs
    · exact ⟨hr, by rw [hv]⟩
    · exact ⟨hr, by rw [hv]⟩
  · rw [if_neg hc, if_neg (fun h2 => hc (hcmp.mpr h2))]
    dsimp only
    split_ifs
    · exact ⟨hl, by rw [hv]⟩
    · exact ⟨hl, by rw [hv]⟩

theorem encode_loop_f64_exact (t p : Int) :
    ∀ (fuel j : Nat) (s : EncodeState64), is_cell j s.start s.stop → j + fuel ≤ 33 →
      (encode_loop_f64 t p fuel s).map encode_state_val =
        encode_loop (f64_val t) p fuel (encode_state_val s) := by
  intro fuel
  induction fuel with
  | zero =>
    intro j s _ _
    rw [encode_loop_f64, encode_loop]
    show _ = if s.thlen < p then none else some (encode_state_val s)
    split_ifs <;> rfl
  | succ fuel ih =>
    intro j s hs hj
    obtain ⟨h1, e1⟩ := encode_step_f64_exact t j s (by omega) hs
    rw [encode_loop_f64, encode_loop]
    show _ = if s.thlen < p then
      encode_loop (f64_val t) p fuel (encode_step (f64_val t) (encode_state_val s))
      else some (encode_state_val s)
    split_ifs
    · rw [← e1]
      exact ih (j + 1) _ h1 (by omega)
    · rfl

/-- For a precision of at most 11 the binary64 encoder returns what the exact one
returns on the value of the timestamp. -/
theorem encode_time_hash_f64_exact (t p : Int) (buffer : Option (List Char)) (hp : p ≤ 11) :
    encode_time_hash_f64 t p buffer = encode_time_hash (f64_val t) p buffer := by
  unfold encode_time_hash_f64 encode_time_hash
  split_ifs with h0
  · rfl
  · cases buffer with
    | none => rfl
    | some b =>
      dsimp only
      split_ifs with hb
      · rfl
      · have h := encode_loop_f64_exact t p (3 * p.toNat) 0
          { start := TIME_INTERVAL_START_F64, stop := TIME_INTERVAL_END_F64,
            thlen := 0, bit := 0, ch := 0, buffer := b } is_cell_domain (by omega)
        have hinit : encode_state_val
            { start := TIME_INTERVAL_START_F64, stop := TIME_INTERVAL_END_F64,
              thlen := 0, bit := 0, ch := 0, buffer := b } =
            { start := TIME_INTERVAL_START_TH, stop := TIME_INTERVAL_END_TH,
              thlen := 0, bit := 0, ch := 0, buffer := b } := by
          unfold encode_state_val
          dsimp only
          rw [f64_val_start, f64_val_end]
        rw [hinit] at h
        rw [← h, Option.map_map]
        rfl

/-! ## Exact-reading facts shared by the bounded binary64 statements -/

/-- In the exact reading the error after `n` characters is `4039372800 / 2^(3n+1)`
and the final interval is twice as wide. -/
theorem decode_loop_error_width (h : List Char) :
    (decode_loop h).time_error = 4039372800 / 2 ^ (3 * h.length + 1) ∧
      (decode_loop h).stop - (decode_loop h).start = 2 * (decode_loop h).time_error := by
  constructor
  · unfold decode_loop
    rw [(decode_fold_width h decode_init).2, two_pow_three_mul]
    simp only [decode_init, TIME_INTERVAL_START_TH, TIME_INTERVAL_END_TH]
    rw [zero_add]
    ring
  · unfold decode_loop
    rw [(decode_fold_width h decode_init).1, (decode_fold_width h decode_init).2]
    simp only [decode_init, TIME_INTERVAL_START_TH, TIME_INTERVAL_END_TH]
    ring

/-- In the exact reading the centre of a valid hash is the closed form, strictly
inside the time domain, and `2019686400` for the empty hash. -/
theorem decode_center_bounds (h : List Char) (hv : valid_hash h) :
    ((decode_loop h).start + (decode_loop h).stop) * (1 / 2) =
        (2 * (hash_value h : ℚ) + 1) * 4039372800 / 2 ^ (3 * h.length + 1) ∧
      (0 < ((decode_loop h).start + (decode_loop h).stop) * (1 / 2) ∧
        ((decode_loop h).start + (decode_loop h).stop) * (1 / 2) < 4039372800) ∧
      (h = [] → ((decode_loop h).start + (decode_loop h).stop) * (1 / 2) = 2019686400) := by
  have hc := decode_center_closed h hv
  refine ⟨hc, ?_, ?_⟩
  · rw [hc, two_pow_three_mul]
    have h8 : (0 : ℚ) < 8 ^ h.length * 2 := by positivity
    have hv0 : (0 : ℚ) ≤ (hash_value h : ℚ) := Nat.cast_nonneg _
    have hvq : (hash_value h : ℚ) + 1 ≤ 8 ^ h.length := by
      exact_mod_cast hash_value_lt h hv
    constructor
    · apply div_pos _ h8
      nlinarith
    · rw [div_lt_iff₀ h8]
      nlinarith
  · intro hnil
    rw [hc, hnil]
    simp only [hash_value, List.length_nil]
    norm_num

/-- What the two neighbour calls write for an interior valid hash: valid hashes of
the same length, of smaller and of larger value. -/
theorem neighbors_spec (h b1 b2 : List Char) (hv : valid_hash h)
    (h0 : ¬ ∀ c ∈ h, c = '0') (hf : ¬ ∀ c ∈ h, c = 'f')
    (hb1 : b1.length = h.length) (hb2 : b2.length = h.length) :
    ∃ hbefore hafter,
      before_time_hash NEIGHBOR_MAP_TH (some h) (some b1) = some (0, some hbefore) ∧
      after_time_hash NEIGHBOR_MAP_TH (some h) (some b2) = some (0, some hafter) ∧
      valid_hash hbefore ∧ valid_hash hafter ∧
      hbefore.length = h.length ∧ hafter.length = h.length ∧
      hash_value hbefore < hash_value h ∧ hash_value h < hash_value hafter := by
  push_neg at h0 hf
  obtain ⟨pre, c, k, he, hne, hc, hcall⟩ := before_time_hash_spec h b1 hv hb1 h0
  obtain ⟨hs, hcode, _, _⟩ := symbol_before_spec c hc hne
  obtain ⟨pre2, c2, k2, he2, hne2, hc2, hcall2⟩ := after_time_hash_spec h b2 hv hb2 hf
  obtain ⟨hs2, hcode2, _, _⟩ := symbol_after_spec c2 hc2 hne2
  refine ⟨_, _, hcall, hcall2,
    valid_hash_rebuild pre c _ '0' 'f' k (he ▸ hv) hs (by decide),
    valid_hash_rebuild pre2 c2 _ 'f' '0' k2 (he2 ▸ hv) hs2 (by decide),
    by rw [he]; simp, by rw [he2]; simp, ?_, ?_⟩
  · have hval := hash_value_borrow pre c (symbol_before c) k hcode
    rw [← he] at hval
    omega
  · have hval := hash_value_borrow pre2 (symbol_after c2) c2 k2 hcode2.symm
    rw [← he2] at hval
    omega

/-- In the exact reading the centre and error decoded from the characters emitted
for `0 < t ≤ 4039372800` enclose `t` in a cell closed at the top. -/
theorem ties_exact (t : ℚ) (n : Nat) (ht0 : 0 < t) (ht1 : t ≤ 4039372800) :
    ((decode_loop (encode_chars t TIME_INTERVAL_START_TH TIME_INTERVAL_END_TH n)).start +
          (decode_loop (encode_chars t TIME_INTERVAL_START_TH TIME_INTERVAL_END_TH n)).stop) *
            (1 / 2) -
          (decode_loop (encode_chars t TIME_INTERVAL_START_TH TIME_INTERVAL_END_TH n)).time_error
        < t ∧
      t ≤ ((decode_loop (encode_chars t TIME_INTERVAL_START_TH TIME_INTERVAL_END_TH n)).start +
          (decode_loop (encode_chars t TIME_INTERVAL_START_TH TIME_INTERVAL_END_TH n)).stop) *
            (1 / 2) +
          (decode_loop (encode_chars t TIME_INTERVAL_START_TH TIME_INTERVAL_END_TH n)).time_error
      := by
  rw [(decode_loop_center_error _).1, (decode_loop_center_error _).2]
  exact decode_encode_chars_strict t n TIME_INTERVAL_START_TH TIME_INTERVAL_END_TH _
    (by simpa [TIME_INTERVAL_START_TH] using ht0)
    (by simpa [TIME_INTERVAL_END_TH] using ht1)

theorem decode_exactly_time_hash_f64_some (h : List Char) (th1 : time_hash_f64) :
    decode_exactly_time_hash_f64 (some h) (some th1) =
      (0, some ⟨h, f64_mid (decode_loop_f64 h).start (decode_loop_f64 h).stop,
        (decode_loop_f64 h).time_error⟩) := rfl

theorem cast_shiftLeft (k e : Nat) : (((k <<< e : Nat) : Int) : ℚ) = (k : ℚ) * 2 ^ e := by
  rw [Nat.shiftLeft_eq]
  push_cast
  ring

theorem f64_val_shift (k : Nat) : f64_val ((k <<< 1074 : Nat) : Int) = (k : ℚ) := by
  unfold f64_val
  have hp : (2 : ℚ) ^ 1074 ≠ 0 := pow_ne_zero _ (by norm_num)
  rw [cast_shiftLeft, mul_div_assoc, div_self hp, mul_one]

/-! ## The binary64 decoder keeps its interval wide for 51 bisections -/

theorem f64_step_pow (s : Nat) (hs : s ≤ 1053) : 2 ^ s ≤ F64_STEP := by
  obtain ⟨d, hd⟩ : ∃ d, 1053 = s + d := ⟨1053 - s, by omega⟩
  unfold F64_STEP
  rw [hd, pow_add]
  exact Nat.le_mul_of_pos_right _ (by positivity)

theorem f64_step_pow_lt (s : Nat) (hs : 1053 < s) : 2 * F64_STEP ≤ 2 ^ s := by
  obtain ⟨d, rfl⟩ : ∃ d, s = 1053 + 1 + d := ⟨s - 1054, by omega⟩
  unfold F64_STEP
  rw [pow_add, pow_add, pow_one, mul_comm 2]
  exact Nat.le_mul_of_pos_right _ (by positivity)

theorem f64_round_near (n : Nat) (hn : n < 2 ^ 54 * F64_STEP) :
    f64_round n ≤ n + F64_STEP ∧ n ≤ f64_round n + F64_STEP ∧
      (2 ^ 53 ≤ n → f64_round n % 2 = 0) := by
  by_cases h53 : n < 2 ^ 53
  · unfold f64_round
    rw [if_pos h53]
    exact ⟨Nat.le_add_right _ _, Nat.le_add_right _ _, fun h => absurd h53 (not_lt.mpr h)⟩
  · obtain ⟨s, hs⟩ : ∃ s, f64_excess n = s + 1 := ⟨_, rfl⟩
    have hge : 2 ^ 53 ≤ n >>> s := by
      have h0 := f64_excess_fold_ge n
        [2048, 1024, 512, 256, 128, 64, 32, 16, 8, 4, 2, 1] 0 (by simpa using not_lt.mp h53)
      have : s = [2048, 1024, 512, 256, 128, 64, 32, 16, 8, 4, 2, 1].foldl
          (f64_excess_step n) 0 := by
        unfold f64_excess at hs
        omega
      rw [this]
      exact h0
    rw [Nat.shiftRight_eq_div_pow] at hge
    have hps : 0 < 2 ^ s := by positivity
    have h1 : 2 ^ 53 * 2 ^ s ≤ n := (Nat.le_div_iff_mul_le hps).mp hge
    have hs1053 : s ≤ 1053 := by
      by_contra hcon
      have h2 := f64_step_pow_lt s (by omega)
      have h3 : 2 ^ 53 * (2 * F64_STEP) ≤ 2 ^ 53 * 2 ^ s := Nat.mul_le_mul_left _ h2
      omega
    have hP : 2 ^ s ≤ F64_STEP := f64_step_pow s hs1053
    have hdiv := Nat.div_add_mod n (2 ^ (s + 1))
    have hmod : n % 2 ^ (s + 1) < 2 ^ (s + 1) := Nat.mod_lt _ (by positivity)
    have hpow : 2 ^ (s + 1) = 2 * 2 ^ s := by rw [pow_succ, mul_comm]
    have hhalf : 2 ^ (s + 1) / 2 = 2 ^ s := by
      rw [hpow, Nat.mul_div_cancel_left _ (by norm_num)]
    unfold f64_round
    rw [if_neg h53]
    simp only [hs, Nat.shiftLeft_eq, Nat.shiftRight_eq_div_pow, one_mul, hhalf]
    generalize n / 2 ^ (s + 1) = q at *
    have hr : n - q * 2 ^ (s + 1) = n % 2 ^ (s + 1) := by
      rw [mul_comm]; omega
    rw [hr]
    generalize n % 2 ^ (s + 1) = r at *
    rw [hpow] at hdiv hmod ⊢
    generalize 2 ^ s = P at *
    have e1 : q * (2 * P) = 2 * (q * P) := by ring
    have e2 : (q + 1) * (2 * P) = 2 * (q * P) + 2 * P := by ring
    have e3 : 2 * P * q = 2 * (q * P) := by ring
    rw [e3] at hdiv
    rw [e1, e2]
    generalize q * P = QP at *
    split_ifs <;> refine ⟨?_, ?_, fun _ => ?_⟩ <;> omega

theorem f64_step_pos : 1 ≤ F64_STEP := by
  simpa using f64_step_pow 0 (by norm_num)

theorem f64_mid_near (a b : Nat) (h : a + b < 2 ^ 54 * F64_STEP) :
    2 * f64_mid a b ≤ a + b + F64_STEP ∧ a + b ≤ 2 * f64_mid a b + F64_STEP := by
  obtain ⟨h1, h2, h3⟩ := f64_round_near (a + b) h
  have hpos := f64_step_pos
  unfold f64_mid
  by_cases h53 : a + b < 2 ^ 53
  · have hr : f64_round (a + b) = a + b := by
      unfold f64_round
      rw [if_pos h53]
    rw [hr]
    unfold f64_half
    split_ifs <;> omega
  · have hev := h3 (not_lt.mp h53)
    rw [f64_half_even _ hev]
    omega

theorem f64_end_step : TIME_INTERVAL_END_F64 = 986175 * 2 ^ 33 * F64_STEP := by
  rw [TIME_INTERVAL_END_F64_eq]
  unfold F64_STEP
  rw [mul_assoc, ← pow_add]

theorem is_wide_gap (k a b : Nat) (h : is_wide k a b) (hk : k ≤ 51) :
    a + 2 * F64_STEP < b := by
  obtain ⟨hab, _, hw⟩ := h
  by_contra hcon
  have h1 : b - a + F64_STEP ≤ 3 * F64_STEP := by omega
  have h2 : (2 : Nat) ^ k ≤ 2 ^ 51 := Nat.pow_le_pow_right (by norm_num) hk
  have h3 : (b - a + F64_STEP) * 2 ^ k ≤ 3 * F64_STEP * 2 ^ 51 := Nat.mul_le_mul h1 h2
  rw [f64_end_step] at hw
  have hpos := f64_step_pos
  norm_num at hw h3
  omega

theorem is_wide_mid (k a b : Nat) (h : is_wide k a b) (hk : k ≤ 51) :
    is_wide (k + 1) a (f64_mid a b) ∧ is_wide (k + 1) (f64_mid a b) b ∧
      a < f64_mid a b ∧ f64_mid a b < b := by
  have hgap := is_wide_gap k a b h hk
  obtain ⟨hab, hbE, hw⟩ := h
  have hsum : a + b < 2 ^ 54 * F64_STEP := by
    have hpos := f64_step_pos
    rw [f64_end_step] at hbE
    norm_num at hbE ⊢
    omega
  obtain ⟨m1, m2⟩ := f64_mid_near a b hsum
  generalize f64_mid a b = m at *
  have e : ∀ x : Nat, x * 2 ^ (k + 1) = (2 * x) * 2 ^ k := by
    intro x
    rw [pow_succ]
    ring
  refine ⟨⟨by omega, by omega, ?_⟩, ⟨by omega, hbE, ?_⟩, by omega, by omega⟩
  · rw [e]
    exact le_trans hw (Nat.mul_le_mul_right _ (by omega))
  · rw [e]
    exact le_trans hw (Nat.mul_le_mul_right _ (by omega))

theorem decode_bit_f64_wide (cd mask : Int) (k : Nat) (s : DecodeState64)
    (h : is_wide k s.start s.stop) (hk : k ≤ 51) :
    is_wide (k + 1) (decode_bit_f64 cd s mask).start (decode_bit_f64 cd s mask).stop := by
  obtain ⟨h1, h2, _, _⟩ := is_wide_mid k _ _ h hk
  unfold decode_bit_f64
  dsimp only
  split_ifs
  · exact h1
  · exact h2

theorem decode_char_f64_wide (c : Char) (k : Nat) (s : DecodeState64)
    (h : is_wide k s.start s.stop) (hk : k ≤ 49) :
    is_wide (k + 3) (decode_char_f64 s c).start (decode_char_f64 s c).stop := by
  unfold decode_char_f64
  simp only [MASK_ARR_TH, List.foldl]
  exact decode_bit_f64_wide _ _ (k + 2) _
    (decode_bit_f64_wide _ _ (k + 1) _ (decode_bit_f64_wide _ _ k _ h (by omega)) (by omega))
    (by omega)

theorem decode_fold_f64_wide :
    ∀ (l : List Char) (k : Nat) (s : DecodeState64), is_wide k s.start s.stop →
      k + 3 * l.length ≤ 52 →
      is_wide (k + 3 * l.length) (l.foldl decode_char_f64 s).start
        (l.foldl decode_char_f64 s).stop := by
  intro l
  induction l with
  | nil => intro k s h _; simpa using h
  | cons c cs ih =>
    intro k s h hk
    rw [List.length_cons] at hk
    rw [List.foldl_cons, List.length_cons]
    have e : k + 3 * (cs.length + 1) = (k + 3) + 3 * cs.length := by ring
    rw [e]
    exact ih (k + 3) _ (decode_char_f64_wide c k s h (by omega)) (by omega)

theorem decode_init_f64_wide : is_wide 0 decode_init_f64.start decode_init_f64.stop := by
  have e1 : decode_init_f64.start = 0 := rfl
  have e2 : decode_init_f64.stop = TIME_INTERVAL_END_F64 := rfl
  rw [e1, e2]
  refine ⟨Nat.zero_le _, le_refl _, ?_⟩
  rw [Nat.sub_zero, pow_zero, mul_one]

/-- Decoding `f` keeps the upper end of the interval. -/
theorem decode_fold_f64_stop :
    ∀ (j : Nat) (s : DecodeState64),
      ((List.replicate j 'f').foldl decode_char_f64 s).stop = s.stop := by
  intro j
  induction j with
  | zero => intro s; rfl
  | succ j ih =>
    intro s
    rw [List.replicate_succ, List.foldl_cons, ih]
    simp +decide [decode_char_f64, decode_bit_f64, MASK_ARR_TH]

/-- Decoding `0` keeps the lower end of the interval. -/
theorem decode_fold_f64_start :
    ∀ (j : Nat) (s : DecodeState64),
      ((List.replicate j '0').foldl decode_char_f64 s).start = s.start := by
  intro j
  induction j with
  | zero => intro s; rfl
  | succ j ih =>
    intro s
    rw [List.replicate_succ, List.foldl_cons, ih]
    simp +decide [decode_char_f64, decode_bit_f64, MASK_ARR_TH]

/-- From one state, the interval decoded for a symbol ends where the interval
decoded for the next symbol starts. -/
theorem decode_char_f64_adjacent (s : DecodeState64) (d c : Char) (hd : is_symbol d)
    (hc : is_symbol c) (hcode : symbol_code d + 1 = symbol_code c) :
    (decode_char_f64 s d).stop = (decode_char_f64 s c).start := by
  rcases symbol_cases d hd with h | h | h | h | h | h | h | h <;> subst h <;>
    rcases symbol_cases c hc with h | h | h | h | h | h | h | h <;> subst h <;>
    first
    | exact absurd hcode (by decide)
    | simp +decide [decode_char_f64, decode_bit_f64, MASK_ARR_TH]

theorem decode_time_hash_f64_some (h : List Char) :
    decode_time_hash_f64 (some h) =
      ((f64_mid (decode_loop_f64 h).start (decode_loop_f64 h).stop : Nat) : Int) := rfl

/-- In binary64 the centre decoded for `pre ++ d :: ff…f` is strictly below the
centre decoded for `pre ++ c :: 00…0`, `c` being the symbol after `d`, when the two
hashes have at most 17 characters. -/
theorem decode_f64_adjacent (pre : List Char) (d c : Char) (j : Nat) (hd : is_symbol d)
    (hc : is_symbol c) (hcode : symbol_code d + 1 = symbol_code c)
    (hlen : pre.length + 1 + j ≤ 17) :
    decode_time_hash_f64 (some (pre ++ d :: List.replicate j 'f')) <
      decode_time_hash_f64 (some (pre ++ c :: List.replicate j '0')) := by
  rw [decode_time_hash_f64_some, decode_time_hash_f64_some]
  unfold decode_loop_f64
  rw [List.foldl_append, List.foldl_append, List.foldl_cons, List.foldl_cons]
  have hS := decode_fold_f64_wide pre 0 decode_init_f64 decode_init_f64_wide (by omega)
  generalize pre.foldl decode_char_f64 decode_init_f64 = S at hS
  have hSd := decode_char_f64_wide d _ S hS (by omega)
  have hSc := decode_char_f64_wide c _ S hS (by omega)
  have hM := decode_char_f64_adjacent S d c hd hc hcode
  generalize decode_char_f64 S d = Sd at hSd hM
  generalize decode_char_f64 S c = Sc at hSc hM
  have hT1 := decode_fold_f64_wide (List.replicate j 'f') _ Sd hSd
    (by rw [List.length_replicate]; omega)
  have hT2 := decode_fold_f64_wide (List.replicate j '0') _ Sc hSc
    (by rw [List.length_replicate]; omega)
  have e1 := decode_fold_f64_stop j Sd
  have e2 := decode_fold_f64_start j Sc
  rw [List.length_replicate] at hT1 hT2
  obtain ⟨_, _, _, k1⟩ := is_wide_mid _ _ _ hT1 (by omega)
  obtain ⟨_, _, k2, _⟩ := is_wide_mid _ _ _ hT2 (by omega)
  have hEq : ((List.replicate j 'f').foldl decode_char_f64 Sd).stop =
      ((List.replicate j '0').foldl decode_char_f64 Sc).start := by
    rw [e1, hM, e2]
  have k3 := lt_trans (lt_of_lt_of_eq k1 hEq) k2
  exact_mod_cast k3

/-- On a hash of at most 17 characters the centre `decode_exactly_time_hash`
computes in binary64 lies strictly inside the time domain. -/
theorem decode_center_f64_inside (h : List Char) (hn : h.length ≤ 17) :
    0 < f64_val ((f64_mid (decode_loop_f64 h).start (decode_loop_f64 h).stop : Nat) : Int) ∧
      f64_val ((f64_mid (decode_loop_f64 h).start (decode_loop_f64 h).stop : Nat) : Int) <
        4039372800 := by
  have hw := decode_fold_f64_wide h 0 decode_init_f64 decode_init_f64_wide (by omega)
  obtain ⟨_, _, k1, k2⟩ := is_wide_mid _ _ _ hw (by omega)
  have hE := hw.2.1
  have e0 : (0 : ℚ) = f64_val ((0 : Nat) : Int) := by
    unfold f64_val
    rw [Nat.cast_zero, Int.cast_zero, zero_div]
  have e1 : (4039372800 : ℚ) = f64_val ((TIME_INTERVAL_END_F64 : Nat) : Int) := by
    rw [f64_val_end]
    rfl
  unfold decode_loop_f64
  rw [e0, e1, f64_val_nat_lt, f64_val_nat_lt]
  constructor
  · exact_mod_cast lt_of_le_of_lt (Nat.zero_le _) k1
  · exact_mod_cast lt_of_lt_of_le k2 hE

/-! ## Properties of the codec -/

/-- C1 (round-trip bound): for a timestamp `0 ≤ t < 4039372800` and a precision
`1 ≤ p ≤ 20`, `encode_time_hash` succeeds on a buffer of length `p`, and
`decode_time_hash` of the hash it writes is within `4039372800 / 2^(3p+1)` of `t`. -/
theorem round_trip_bound (t : ℚ) (p : Int) (buffer : List Char)
    (ht0 : 0 ≤ t) (ht1 : t < 4039372800) (hp1 : 1 ≤ p) (hp20 : p ≤ 20)
    (hb : (buffer.length : Int) = p) :
    ∃ hash, encode_time_hash t p (some buffer) = some (0, some hash) ∧
      |decode_time_hash (some hash) - t| ≤ 4039372800 / 2 ^ (3 * p.toNat + 1) := by
  refine ⟨_, encode_time_hash_eq t p buffer (by omega) hb, ?_⟩
  rw [decode_time_hash_some]
  unfold decode_loop decode_init
  have hin := decode_encode_chars t p.toNat TIME_INTERVAL_START_TH TIME_INTERVAL_END_TH
    ((TIME_INTERVAL_START_TH + TIME_INTERVAL_END_TH) * (1 / 2))
    (by simpa [TIME_INTERVAL_START_TH] using ht0)
    (by simp only [TIME_INTERVAL_END_TH]; exact le_of_lt ht1)
  have hw := (decode_fold_width
    (encode_chars t TIME_INTERVAL_START_TH TIME_INTERVAL_END_TH p.toNat)
    ⟨TIME_INTERVAL_START_TH, TIME_INTERVAL_END_TH,
      (TIME_INTERVAL_START_TH + TIME_INTERVAL_END_TH) * (1 / 2)⟩).1
  have hE : TIME_INTERVAL_END_TH - TIME_INTERVAL_START_TH = 4039372800 := by
    simp only [TIME_INTERVAL_START_TH, TIME_INTERVAL_END_TH, sub_zero]
  rw [encode_chars_length] at hw
  dsimp only at hw
  rw [hE] at hw
  have hhalf : (4039372800 : ℚ) / 2 ^ (3 * p.toNat + 1) = 4039372800 / 8 ^ p.toNat / 2 := by
    rw [two_pow_three_mul, div_div]
  rw [hhalf, ← hw, abs_le]
  obtain ⟨h1, h2⟩ := hin
  constructor <;> linarith

theorem round_trip_bound_witness :
    ((0 : ℚ) ≤ 1000000000 ∧ (1000000000 : ℚ) < 4039372800 ∧ (1 : Int) ≤ 2 ∧ (2 : Int) ≤ 20 ∧
      ((['x', 'y'].length : Nat) : Int) = 2) ∧
    ∃ hash, encode_time_hash 1000000000 2 (some ['x', 'y']) = some (0, some hash) ∧
      |decode_time_hash (some hash) - 1000000000| ≤ 4039372800 / 2 ^ (3 * (2 : Int).toNat + 1) :=
  ⟨⟨by norm_num, by norm_num, by decide, by decide, by decide⟩,
    round_trip_bound 1000000000 2 ['x', 'y'] (by norm_num) (by norm_num) (by decide)
      (by decide) (by decide)⟩

/-- C2 (monotonicity of encode): for a precision `p > 0` and timestamps `t1 < t2`,
the hash `encode_time_hash` writes for `(t1, p)` is lexicographically at or before
the one for `(t2, p)`, in the alphabet order `0 < 1 < a < b < c < d < e < f`. -/
theorem encode_monotone (t1 t2 : ℚ) (p : Int) (b1 b2 : List Char)
    (hp : 0 < p) (ht : t1 < t2) (hb1 : (b1.length : Int) = p) (hb2 : (b2.length : Int) = p) :
    ∃ h1 h2, encode_time_hash t1 p (some b1) = some (0, some h1) ∧
      encode_time_hash t2 p (some b2) = some (0, some h2) ∧ lex_le h1 h2 = true :=
  ⟨_, _, encode_time_hash_eq t1 p b1 hp hb1, encode_time_hash_eq t2 p b2 hp hb2,
    encode_chars_mono t1 t2 (le_of_lt ht) p.toNat _ _
      (by simp only [TIME_INTERVAL_START_TH, TIME_INTERVAL_END_TH]; norm_num)⟩

theorem encode_monotone_witness :
    ((0 : Int) < 2 ∧ (1000000000 : ℚ) < 3000000000 ∧ ((['x', 'y'].length : Nat) : Int) = 2 ∧
      ((['u', 'v'].length : Nat) : Int) = 2) ∧
    ∃ h1 h2, encode_time_hash 1000000000 2 (some ['x', 'y']) = some (0, some h1) ∧
      encode_time_hash 3000000000 2 (some ['u', 'v']) = some (0, some h2) ∧
      lex_le h1 h2 = true :=
  ⟨⟨by decide, by norm_num, by decide, by decide⟩,
    encode_monotone 1000000000 3000000000 2 ['x', 'y'] ['u', 'v'] (by decide) (by norm_num)
      (by decide) (by decide)⟩

/-- C3 (length and alphabet invariant of encode): for every timestamp and every
precision `p > 0`, on a non-NULL buffer of length `p`, `encode_time_hash` returns
`0` and the hash it writes has exactly `p` characters, each one of `01abcdef`. -/
theorem encode_length_alphabet (t : ℚ) (p : Int) (buffer : List Char)
    (hp : 0 < p) (hb : (buffer.length : Int) = p) :
    ∃ hash, encode_time_hash t p (some buffer) = some (0, some hash) ∧
      (hash.length : Int) = p ∧
      ∀ c ∈ hash, c ∈ ['0', '1', 'a', 'b', 'c', 'd', 'e', 'f'] := by
  refine ⟨_, encode_time_hash_eq t p buffer hp hb, ?_, ?_⟩
  · rw [encode_chars_length]; omega
  · exact encode_chars_valid t p.toNat _ _

theorem encode_length_alphabet_witness :
    ((0 : Int) < 3 ∧ ((['x', 'y', 'z'].length : Nat) : Int) = 3) ∧
    ∃ hash, encode_time_hash 1234567890 3 (some ['x', 'y', 'z']) = some (0, some hash) ∧
      (hash.length : Int) = 3 ∧
      ∀ c ∈ hash, c ∈ ['0', '1', 'a', 'b', 'c', 'd', 'e', 'f'] :=
  ⟨⟨by decide, by decide⟩,
    encode_length_alphabet 1234567890 3 ['x', 'y', 'z'] (by decide) (by decide)⟩

set_option maxRecDepth 4000 in
/-- C4, counterexample: in binary64 the hash `ffffffffffff` (12 characters) is
decoded with code `0` to a final interval whose width `end - start` is not
`2 * error`. -/
theorem decode_width_rounded :
    valid_hash (List.replicate 12 'f') ∧
      (decode_exactly_time_hash_f64 (some (List.replicate 12 'f')) (some ⟨[], 0, 0⟩)).1 = 0 ∧
      (decode_loop_f64 (List.replicate 12 'f')).stop -
          (decode_loop_f64 (List.replicate 12 'f')).start ≠
        2 * (decode_loop_f64 (List.replicate 12 'f')).time_error := by
  decide

/-- C4, amended: in the binary64 code, `decode_exactly_time_hash` returns `0` and
the rounded midpoint `(start + end) * 0.5` of its final interval; the error is
exactly `4039372800 / 2^(3n+1)` for a hash of `n ≤ 361` characters, the final
interval satisfies `end - start = 2 * error` for `n ≤ 11`, and the centre is its
exact midpoint for `n ≤ 10`. With arithmetic read as exact, all three hold for
every `n`. -/
theorem decode_error_formula_bounded (h : List Char) (th0 : time_hash) (th1 : time_hash_f64) :
    (∃ th, decode_exactly_time_hash_f64 (some h) (some th1) = (0, some th) ∧
      th.center = f64_mid (decode_loop_f64 h).start (decode_loop_f64 h).stop ∧
      (h.length ≤ 361 → f64_val th.error = 4039372800 / 2 ^ (3 * h.length + 1)) ∧
      (h.length ≤ 11 →
        f64_val (decode_loop_f64 h).stop - f64_val (decode_loop_f64 h).start =
          2 * f64_val th.error) ∧
      (h.length ≤ 10 →
        f64_val th.center =
          (f64_val (decode_loop_f64 h).start + f64_val (decode_loop_f64 h).stop) / 2)) ∧
    (∃ th, decode_exactly_time_hash (some h) (some th0) = (0, some th) ∧
      th.error = 4039372800 / 2 ^ (3 * h.length + 1) ∧
      th.center = ((decode_loop h).start + (decode_loop h).stop) / 2 ∧
      (decode_loop h).stop - (decode_loop h).start = 2 * th.error) := by
  constructor
  · refine ⟨_, decode_exactly_time_hash_f64_some h th1, rfl, ?_, ?_, ?_⟩
    · intro hn
      exact decode_error_f64_exact h hn
    · intro hn
      have hv := (decode_loop_f64_exact h hn).2
      have h1 : f64_val (decode_loop_f64 h).stop = (decode_loop h).stop := by rw [← hv]; rfl
      have h2 : f64_val (decode_loop_f64 h).start = (decode_loop h).start := by rw [← hv]; rfl
      have h3 : f64_val (decode_loop_f64 h).time_error = (decode_loop h).time_error := by
        rw [← hv]; rfl
      show _ = 2 * f64_val (decode_loop_f64 h).time_error
      rw [h1, h2, h3]
      exact (decode_loop_error_width h).2
    · intro hn
      have hv := (decode_loop_f64_exact h (by omega)).2
      have h1 : f64_val (decode_loop_f64 h).stop = (decode_loop h).stop := by rw [← hv]; rfl
      have h2 : f64_val (decode_loop_f64 h).start = (decode_loop h).start := by rw [← hv]; rfl
      show f64_val (f64_mid (decode_loop_f64 h).start (decode_loop_f64 h).stop) = _
      rw [decode_center_f64_exact h hn, h1, h2]
      ring
  · refine ⟨_, decode_exactly_time_hash_some h th0, (decode_loop_error_width h).1, ?_,
      (decode_loop_error_width h).2⟩
    show ((decode_loop h).start + (decode_loop h).stop) * (1 / 2) = _
    ring

theorem decode_error_formula_bounded_witness :
    (['a', 'f'].length ≤ 361 ∧ ['a', 'f'].length ≤ 11 ∧ ['a', 'f'].length ≤ 10) ∧
    (∃ th, decode_exactly_time_hash_f64 (some ['a', 'f']) (some ⟨[], 0, 0⟩) = (0, some th) ∧
      f64_val th.error = 4039372800 / 2 ^ (3 * ['a', 'f'].length + 1) ∧
      f64_val (decode_loop_f64 ['a', 'f']).stop - f64_val (decode_loop_f64 ['a', 'f']).start =
        2 * f64_val th.error ∧
      f64_val th.center =
        (f64_val (decode_loop_f64 ['a', 'f']).start +
          f64_val (decode_loop_f64 ['a', 'f']).stop) / 2) := by
  refine ⟨⟨by decide, by decide, by decide⟩, ?_⟩
  obtain ⟨⟨th, h1, _, h3, h4, h5⟩, _⟩ :=
    decode_error_formula_bounded ['a', 'f'] ⟨[], 0, 0⟩ ⟨[], 0, 0⟩
  exact ⟨th, h1, h3 (by decide), h4 (by decide), h5 (by decide)⟩

/-- C5 (decode is order-preserving): for valid hashes `h1`, `h2` of one length with
`h1` lexicographically before `h2` in the alphabet order, the centre decoded from
`h1` is at most the centre decoded from `h2`. -/
theorem decode_order_preserving (h1 h2 : List Char) (a1 a2 : time_hash)
    (hv1 : valid_hash h1) (hv2 : valid_hash h2) (hl : h1.length = h2.length)
    (hlt : lex_lt h1 h2 = true) :
    ∃ th1 th2, decode_exactly_time_hash (some h1) (some a1) = (0, some th1) ∧
      decode_exactly_time_hash (some h2) (some a2) = (0, some th2) ∧
      th1.center ≤ th2.center := by
  refine ⟨_, _, decode_exactly_time_hash_some h1 a1, decode_exactly_time_hash_some h2 a2, ?_⟩
  have h := decode_center_lt h1 h2 hv1 hv2 hl (lex_lt_value h1 h2 hv1 hv2 hl hlt)
  rw [decode_time_hash_some, decode_time_hash_some] at h
  exact le_of_lt h

theorem decode_order_preserving_witness :
    (valid_hash ['a', 'f'] ∧ valid_hash ['b', '0'] ∧ ['a', 'f'].length = ['b', '0'].length ∧
      lex_lt ['a', 'f'] ['b', '0'] = true) ∧
    ∃ th1 th2,
      decode_exactly_time_hash (some ['a', 'f']) (some ⟨[], 0, 0⟩) = (0, some th1) ∧
      decode_exactly_time_hash (some ['b', '0']) (some ⟨[], 0, 0⟩) = (0, some th2) ∧
      th1.center ≤ th2.center :=
  ⟨⟨by decide, by decide, by decide, by decide⟩,
    decode_order_preserving ['a', 'f'] ['b', '0'] ⟨[], 0, 0⟩ ⟨[], 0, 0⟩ (by decide) (by decide)
      (by decide) (by decide)⟩

/-- C6 (before/after are base-8 decrement/increment): with `NEIGHBOR_MAP_TH` as
`init_time_hash` leaves it, for a valid hash `h` and a buffer of the same length:
if `h` has a character other than `0`, `before_time_hash` returns `0` and writes
`h` with its rightmost non-`0` character `c` replaced by `BEFORE[c]` and every
character to its right set to `f`, a valid hash of the same length whose base-8
value is `value(h) - 1`; if `h` has a character other than `f`, `after_time_hash`
symmetrically writes the same-length hash of value `value(h) + 1`. -/
theorem before_after_base8 (h b : List Char) (hv : valid_hash h) (hb : b.length = h.length) :
    ((∃ c ∈ h, c ≠ '0') →
      ∃ (pre : List Char) (c : Char) (k : Nat) (r : List Char),
        h = pre ++ c :: List.replicate k '0' ∧ c ≠ '0' ∧
        r = pre ++ symbol_before c :: List.replicate k 'f' ∧
        before_time_hash NEIGHBOR_MAP_TH (some h) (some b) = some (0, some r) ∧
        r.length = h.length ∧ valid_hash r ∧
        (hash_value r : Int) = (hash_value h : Int) - 1) ∧
    ((∃ c ∈ h, c ≠ 'f') →
      ∃ (pre : List Char) (c : Char) (k : Nat) (r : List Char),
        h = pre ++ c :: List.replicate k 'f' ∧ c ≠ 'f' ∧
        r = pre ++ symbol_after c :: List.replicate k '0' ∧
        after_time_hash NEIGHBOR_MAP_TH (some h) (some b) = some (0, some r) ∧
        r.length = h.length ∧ valid_hash r ∧
        (hash_value r : Int) = (hash_value h : Int) + 1) := by
  constructor
  · intro h0
    obtain ⟨pre, c, k, he, hne, hc, hcall⟩ := before_time_hash_spec h b hv hb h0
    obtain ⟨hs, hcode, _, _⟩ := symbol_before_spec c hc hne
    refine ⟨pre, c, k, _, he, hne, rfl, hcall, by rw [he]; simp, ?_, ?_⟩
    · exact valid_hash_rebuild pre c _ '0' 'f' k (he ▸ hv) hs (by decide)
    · have hval := hash_value_borrow pre c (symbol_before c) k hcode
      rw [he]
      omega
  · intro hf
    obtain ⟨pre, c, k, he, hne, hc, hcall⟩ := after_time_hash_spec h b hv hb hf
    obtain ⟨hs, hcode, _, _⟩ := symbol_after_spec c hc hne
    refine ⟨pre, c, k, _, he, hne, rfl, hcall, by rw [he]; simp, ?_, ?_⟩
    · exact valid_hash_rebuild pre c _ 'f' '0' k (he ▸ hv) hs (by decide)
    · have hval := hash_value_borrow pre (symbol_after c) c k hcode.symm
      rw [he]
      omega

theorem before_after_base8_witness :
    (valid_hash ['a', '1', '0'] ∧ ['x', 'y', 'z'].length = ['a', '1', '0'].length) ∧
    (∃ (pre : List Char) (c : Char) (k : Nat) (r : List Char),
        ['a', '1', '0'] = pre ++ c :: List.replicate k '0' ∧ c ≠ '0' ∧
        r = pre ++ symbol_before c :: List.replicate k 'f' ∧
        before_time_hash NEIGHBOR_MAP_TH (some ['a', '1', '0']) (some ['x', 'y', 'z']) =
          some (0, some r) ∧
        r.length = ['a', '1', '0'].length ∧ valid_hash r ∧
        (hash_value r : Int) = (hash_value ['a', '1', '0'] : Int) - 1) ∧
    (∃ (pre : List Char) (c : Char) (k : Nat) (r : List Char),
        ['a', '1', '0'] = pre ++ c :: List.replicate k 'f' ∧ c ≠ 'f' ∧
        r = pre ++ symbol_after c :: List.replicate k '0' ∧
        after_time_hash NEIGHBOR_MAP_TH (some ['a', '1', '0']) (some ['x', 'y', 'z']) =
          some (0, some r) ∧
        r.length = ['a', '1', '0'].length ∧ valid_hash r ∧
        (hash_value r : Int) = (hash_value ['a', '1', '0'] : Int) + 1) :=
  ⟨⟨by decide, by decide⟩,
    (before_after_base8 ['a', '1', '0'] ['x', 'y', 'z'] (by decide) (by decide)).1
      ⟨'a', by decide, by decide⟩,
    (before_after_base8 ['a', '1', '0'] ['x', 'y', 'z'] (by decide) (by decide)).2
      ⟨'a', by decide, by decide⟩⟩

/-- C7 (neighbor inverse): for a valid hash `h` that is neither all-`0` nor all-`f`
(hence non-empty) and buffers of its length, `before_time_hash` succeeds and
`after_time_hash` on what it wrote succeeds and writes `h`; likewise
`after_time_hash` followed by `before_time_hash` writes `h`. -/
theorem neighbor_inverse (h b1 b2 : List Char) (hv : valid_hash h)
    (h0 : ¬ ∀ c ∈ h, c = '0') (hf : ¬ ∀ c ∈ h, c = 'f')
    (hb1 : b1.length = h.length) (hb2 : b2.length = h.length) :
    (∃ r, before_time_hash NEIGHBOR_MAP_TH (some h) (some b1) = some (0, some r) ∧
      after_time_hash NEIGHBOR_MAP_TH (some r) (some b2) = some (0, some h)) ∧
    (∃ r, after_time_hash NEIGHBOR_MAP_TH (some h) (some b1) = some (0, some r) ∧
      before_time_hash NEIGHBOR_MAP_TH (some r) (some b2) = some (0, some h)) := by
  push_neg at h0 hf
  constructor
  · obtain ⟨pre, c, k, he, hne, hc, hcall⟩ := before_time_hash_spec h b1 hv hb1 h0
    obtain ⟨hs, _, hnf, hinv⟩ := symbol_before_spec c hc hne
    refine ⟨_, hcall, ?_⟩
    have hl : b2.length = pre.length + 1 + k := by rw [hb2, he]; simp; omega
    have := before_or_after_th_hit NEIGHBOR_MAP_TH 1 'f' '0' (symbol_after (symbol_before c))
      (symbol_before c) pre b2 k rfl rfl hnf (neighbor_lookup_symbol _ hs).2 hl
    rw [hinv, ← he] at this
    exact this
  · obtain ⟨pre, c, k, he, hne, hc, hcall⟩ := after_time_hash_spec h b1 hv hb1 hf
    obtain ⟨hs, _, hnz, hinv⟩ := symbol_after_spec c hc hne
    refine ⟨_, hcall, ?_⟩
    have hl : b2.length = pre.length + 1 + k := by rw [hb2, he]; simp; omega
    have := before_or_after_th_hit NEIGHBOR_MAP_TH 0 '0' 'f' (symbol_before (symbol_after c))
      (symbol_after c) pre b2 k rfl rfl hnz (neighbor_lookup_symbol _ hs).1 hl
    rw [hinv, ← he] at this
    exact this

theorem neighbor_inverse_witness :
    (valid_hash ['1', '0', '0'] ∧ (¬ ∀ c ∈ ['1', '0', '0'], c = '0') ∧
      (¬ ∀ c ∈ ['1', '0', '0'], c = 'f') ∧ ['x', 'y', 'z'].length = ['1', '0', '0'].length ∧
      ['u', 'v', 'w'].length = ['1', '0', '0'].length) ∧
    (∃ r, before_time_hash NEIGHBOR_MAP_TH (some ['1', '0', '0']) (some ['x', 'y', 'z']) =
        some (0, some r) ∧
      after_time_hash NEIGHBOR_MAP_TH (some r) (some ['u', 'v', 'w']) =
        some (0, some ['1', '0', '0'])) ∧
    (∃ r, after_time_hash NEIGHBOR_MAP_TH (some ['1', '0', '0']) (some ['x', 'y', 'z']) =
        some (0, some r) ∧
      before_time_hash NEIGHBOR_MAP_TH (some r) (some ['u', 'v', 'w']) =
        some (0, some ['1', '0', '0'])) :=
  ⟨⟨by decide, by decide, by decide, by decide, by decide⟩,
    neighbor_inverse ['1', '0', '0'] ['x', 'y', 'z'] ['u', 'v', 'w'] (by decide) (by decide)
      (by decide) (by decide) (by decide)⟩

set_option maxRecDepth 4000 in
/-- C8, counterexample: in binary64 the valid interior hash `ffffffffffffffffe0`
(18 characters), the hash `ffffffffffffffffdf` that `before_time_hash` writes for
it and the hash `ffffffffffffffffe1` that `after_time_hash` writes for it are all
decoded by `decode_time_hash` to the same double. -/
theorem neighbor_centers_collapse :
    valid_hash (List.replicate 16 'f' ++ ['e', '0']) ∧
    before_time_hash NEIGHBOR_MAP_TH (some (List.replicate 16 'f' ++ ['e', '0']))
        (some (List.replicate 18 'x')) =
      some (0, some (List.replicate 16 'f' ++ ['d', 'f'])) ∧
    after_time_hash NEIGHBOR_MAP_TH (some (List.replicate 16 'f' ++ ['e', '0']))
        (some (List.replicate 18 'x')) =
      some (0, some (List.replicate 16 'f' ++ ['e', '1'])) ∧
    decode_time_hash_f64 (some (List.replicate 16 'f' ++ ['d', 'f'])) =
      decode_time_hash_f64 (some (List.replicate 16 'f' ++ ['e', '0'])) ∧
    decode_time_hash_f64 (some (List.replicate 16 'f' ++ ['e', '0'])) =
      decode_time_hash_f64 (some (List.replicate 16 'f' ++ ['e', '1'])) := by
  decide

/-- C8, amended: for a valid hash `h` that is neither all-`0` nor all-`f` and
buffers of its length, `before_time_hash` and `after_time_hash` succeed, and
`decode(before(h)) < decode(h) < decode(after(h))` holds of `decode_time_hash` in
binary64 when `h` has at most 17 characters, and for every length with arithmetic
read as exact. -/
theorem neighbor_ordering_bounded (h b1 b2 : List Char) (hv : valid_hash h)
    (h0 : ¬ ∀ c ∈ h, c = '0') (hf : ¬ ∀ c ∈ h, c = 'f')
    (hb1 : b1.length = h.length) (hb2 : b2.length = h.length) :
    ∃ hbefore hafter,
      before_time_hash NEIGHBOR_MAP_TH (some h) (some b1) = some (0, some hbefore) ∧
      after_time_hash NEIGHBOR_MAP_TH (some h) (some b2) = some (0, some hafter) ∧
      (h.length ≤ 17 →
        decode_time_hash_f64 (some hbefore) < decode_time_hash_f64 (some h) ∧
        decode_time_hash_f64 (some h) < decode_time_hash_f64 (some hafter)) ∧
      (decode_time_hash (some hbefore) < decode_time_hash (some h) ∧
        decode_time_hash (some h) < decode_time_hash (some hafter)) := by
  obtain ⟨hbefore, hafter, c1, c2, v1, v2, l1, l2, lt1, lt2⟩ :=
    neighbors_spec h b1 b2 hv h0 hf hb1 hb2
  have e1 := decode_center_lt hbefore h v1 hv l1 lt1
  have e2 := decode_center_lt h hafter hv v2 l2.symm lt2
  refine ⟨hbefore, hafter, c1, c2, ?_, e1, e2⟩
  intro hn
  push_neg at h0 hf
  obtain ⟨pre, c, k, he, hne, hc, hcall⟩ := before_time_hash_spec h b1 hv hb1 h0
  obtain ⟨hs, hcode, _, _⟩ := symbol_before_spec c hc hne
  obtain ⟨pre2, d, k2, he2, hne2, hd, hcall2⟩ := after_time_hash_spec h b2 hv hb2 hf
  obtain ⟨hs2, hcode2, _, _⟩ := symbol_after_spec d hd hne2
  have q1 : hbefore = pre ++ symbol_before c :: List.replicate k 'f' := by
    rw [c1] at hcall
    simpa using hcall
  have q2 : hafter = pre2 ++ symbol_after d :: List.replicate k2 '0' := by
    rw [c2] at hcall2
    simpa using hcall2
  have hl1 : pre.length + 1 + k ≤ 17 := by
    have hlen := congrArg List.length he
    simp at hlen
    omega
  have hl2 : pre2.length + 1 + k2 ≤ 17 := by
    have hlen := congrArg List.length he2
    simp at hlen
    omega
  have r1 := decode_f64_adjacent pre _ c k hs hc hcode hl1
  have r2 := decode_f64_adjacent pre2 d _ k2 hd hs2 hcode2.symm hl2
  rw [← he, ← q1] at r1
  rw [← he2, ← q2] at r2
  exact ⟨r1, r2⟩

theorem neighbor_ordering_bounded_witness :
    (valid_hash ['a', 'f'] ∧ (¬ ∀ c ∈ ['a', 'f'], c = '0') ∧ (¬ ∀ c ∈ ['a', 'f'], c = 'f') ∧
      ['x', 'y'].length = ['a', 'f'].length ∧ ['u', 'v'].length = ['a', 'f'].length ∧
      ['a', 'f'].length ≤ 17) ∧
    ∃ hbefore hafter,
      before_time_hash NEIGHBOR_MAP_TH (some ['a', 'f']) (some ['x', 'y']) =
        some (0, some hbefore) ∧
      after_time_hash NEIGHBOR_MAP_TH (some ['a', 'f']) (some ['u', 'v']) =
        some (0, some hafter) ∧
      (decode_time_hash_f64 (some hbefore) < decode_time_hash_f64 (some ['a', 'f']) ∧
        decode_time_hash_f64 (some ['a', 'f']) < decode_time_hash_f64 (some hafter)) ∧
      (decode_time_hash (some hbefore) < decode_time_hash (some ['a', 'f']) ∧
        decode_time_hash (some ['a', 'f']) < decode_time_hash (some hafter)) := by
  refine ⟨⟨by decide, by decide, by decide, by decide, by decide, by decide⟩, ?_⟩
  obtain ⟨hbefore, hafter, c1, c2, k1, k2⟩ :=
    neighbor_ordering_bounded ['a', 'f'] ['x', 'y'] ['u', 'v'] (by decide) (by decide)
      (by decide) (by decide) (by decide)
  exact ⟨hbefore, hafter, c1, c2, k1 (by decide), k2⟩

/-- C9 (boundary failures in the C API): whatever the table and the buffer, for a
hash all of whose characters are `0`, `before_time_hash` returns a non-zero code and
leaves the buffer unchanged, the code being `-4` when the buffer is non-NULL and of
the hash's length; likewise `after_time_hash` for a hash all of whose characters
are `f`. -/
theorem boundary_failures (map : List (List Char)) (h : List Char)
    (buffer : Option (List Char)) :
    ((∀ c ∈ h, c = '0') →
      ∃ code : Int, before_time_hash map (some h) buffer = some (code, buffer) ∧
        code ≠ 0 ∧ (∀ b, buffer = some b → b.length = h.length → code = -4)) ∧
    ((∀ c ∈ h, c = 'f') →
      ∃ code : Int, after_time_hash map (some h) buffer = some (code, buffer) ∧
        code ≠ 0 ∧ (∀ b, buffer = some b → b.length = h.length → code = -4)) :=
  ⟨fun hall => before_or_after_th_boundary map 0 '0' h buffer rfl hall,
    fun hall => before_or_after_th_boundary map 1 'f' h buffer rfl hall⟩

theorem boundary_failures_witness :
    ((∀ c ∈ ['0', '0', '0', '0'], c = '0') ∧ (∀ c ∈ ['f', 'f', 'f', 'f'], c = 'f')) ∧
    (∃ code : Int,
      before_time_hash NEIGHBOR_MAP_TH (some ['0', '0', '0', '0']) (some ['w', 'x', 'y', 'z']) =
        some (code, some ['w', 'x', 'y', 'z']) ∧
      code ≠ 0 ∧
      (∀ b, some ['w', 'x', 'y', 'z'] = some b → b.length = ['0', '0', '0', '0'].length →
        code = -4)) ∧
    (∃ code : Int,
      after_time_hash NEIGHBOR_MAP_TH (some ['f', 'f', 'f', 'f']) (some ['w', 'x', 'y', 'z']) =
        some (code, some ['w', 'x', 'y', 'z']) ∧
      code ≠ 0 ∧
      (∀ b, some ['w', 'x', 'y', 'z'] = some b → b.length = ['f', 'f', 'f', 'f'].length →
        code = -4)) :=
  ⟨⟨by decide, by decide⟩,
    (boundary_failures NEIGHBOR_MAP_TH ['0', '0', '0', '0'] (some ['w', 'x', 'y', 'z'])).1
      (by decide),
    (boundary_failures NEIGHBOR_MAP_TH ['f', 'f', 'f', 'f'] (some ['w', 'x', 'y', 'z'])).2
      (by decide)⟩

/-- C10 (C++ validate is full-string membership): `th::time_hash::validate(s)` is
true if and only if every character of `s` is one of `01abcdef`; in particular it
is true of the empty string. -/
theorem validate_iff (s : List Char) :
    (validate s = true ↔ ∀ c ∈ s, c ∈ ['0', '1', 'a', 'b', 'c', 'd', 'e', 'f']) ∧
      validate [] = true := by
  refine ⟨?_, rfl⟩
  induction s with
  | nil => simp [validate]
  | cons a l ih =>
    rw [validate]
    by_cases ha : a ∈ BASE32
    · rw [if_neg (fun hn => (string_find_none a).mp hn ha), ih]
      constructor
      · intro hl c hc
        rcases List.mem_cons.mp hc with h1 | h1
        · rw [h1]; exact ha
        · exact hl c h1
      · intro hl c hc
        exact hl c (List.mem_cons_of_mem a hc)
    · rw [if_pos ((string_find_none a).mpr ha)]
      constructor
      · intro hcon; cases hcon
      · intro hl
        exact absurd (hl a (List.mem_cons_self a l)) ha

/-- C11 (C validate checks the whole string): fails on the code.
`validate_time_hash` returns `0` as soon as one character is found in `BASE32_TH`:
it reports `01abcdefg` valid, as it does every string that starts with `0`, and it
reports the empty string invalid (`-1`). -/
theorem validate_time_hash_early_return :
    validate_time_hash (some ['0', '1', 'a', 'b', 'c', 'd', 'e', 'f', 'g']) = some 0 ∧
      ¬ valid_hash ['0', '1', 'a', 'b', 'c', 'd', 'e', 'f', 'g'] ∧
      validate_time_hash (some []) = some (-1) ∧ valid_hash [] ∧
      ∀ rest : List Char, validate_time_hash (some ('0' :: rest)) = some 0 :=
  ⟨by decide, by decide, by decide, by decide, validate_time_hash_first⟩

/-- C13, counterexample: the hash `ga` has a character outside the alphabet, yet
`before_time_hash` returns `0` and writes `g1`, and `after_time_hash` returns `0`
and writes `gb`. -/
theorem navigator_accepts_invalid_symbol :
    ¬ valid_hash ['g', 'a'] ∧
      before_time_hash NEIGHBOR_MAP_TH (some ['g', 'a']) (some ['x', 'y']) =
        some (0, some ['g', '1']) ∧
      after_time_hash NEIGHBOR_MAP_TH (some ['g', 'a']) (some ['x', 'y']) =
        some (0, some ['g', 'b']) :=
  ⟨by decide, by decide, by decide⟩

/-- C13, amended: the navigator does not validate. Whenever the rightmost character
other than `0` (for `before_time_hash`; other than `f` for `after_time_hash`) is an
alphabet symbol `c`, the call on a buffer of the hash's length returns `0` and
writes the hash with `c` replaced by `BEFORE[c]` (`AFTER[c]`) and the characters to
its right set to `f` (`0`), whatever the characters `pre` to its left. -/
theorem navigator_without_validation (pre b : List Char) (c : Char) (k : Nat)
    (hc : is_symbol c) (hb : b.length = pre.length + 1 + k) :
    (c ≠ '0' →
      before_time_hash NEIGHBOR_MAP_TH (some (pre ++ c :: List.replicate k '0')) (some b) =
        some (0, some (pre ++ symbol_before c :: List.replicate k 'f'))) ∧
    (c ≠ 'f' →
      after_time_hash NEIGHBOR_MAP_TH (some (pre ++ c :: List.replicate k 'f')) (some b) =
        some (0, some (pre ++ symbol_after c :: List.replicate k '0'))) :=
  ⟨fun hne => before_or_after_th_hit NEIGHBOR_MAP_TH 0 '0' 'f' (symbol_before c) c pre b k
      rfl rfl hne (neighbor_lookup_symbol c hc).1 hb,
    fun hne => before_or_after_th_hit NEIGHBOR_MAP_TH 1 'f' '0' (symbol_after c) c pre b k
      rfl rfl hne (neighbor_lookup_symbol c hc).2 hb⟩

theorem navigator_without_validation_witness :
    (is_symbol 'a' ∧ ['x', 'y', 'z'].length = ['g'].length + 1 + 1) ∧
    before_time_hash NEIGHBOR_MAP_TH (some (['g'] ++ 'a' :: List.replicate 1 '0'))
        (some ['x', 'y', 'z']) =
      some (0, some (['g'] ++ symbol_before 'a' :: List.replicate 1 'f')) ∧
    after_time_hash NEIGHBOR_MAP_TH (some (['g'] ++ 'a' :: List.replicate 1 'f'))
        (some ['x', 'y', 'z']) =
      some (0, some (['g'] ++ symbol_after 'a' :: List.replicate 1 '0')) :=
  ⟨⟨by decide, by decide⟩,
    (navigator_without_validation ['g'] ['x', 'y', 'z'] 'a' 1 (by decide) (by decide)).1
      (by decide),
    (navigator_without_validation ['g'] ['x', 'y', 'z'] 'a' 1 (by decide) (by decide)).2
      (by decide)⟩

/-- C14 (invalid precision is rejected): for every timestamp, every precision
`p ≤ 0` and every buffer, NULL or not, `encode_time_hash` returns `-1` and leaves
the buffer as it was; the guard of its loop is false at once for such a precision,
so no bisection step can run. -/
theorem encode_rejects_precision (t : ℚ) (p : Int) (buffer : Option (List Char))
    (hp : p ≤ 0) :
    encode_time_hash t p buffer = some (-1, buffer) ∧
      ∀ (fuel : Nat) (s : EncodeState), s.thlen = 0 → encode_loop t p fuel s = some s := by
  constructor
  · unfold encode_time_hash
    rw [if_pos hp]
  · intro fuel s hs
    have hg : ¬ s.thlen < p := by rw [hs]; omega
    cases fuel with
    | zero => rw [encode_loop, if_neg hg]
    | succ n => rw [encode_loop, if_neg hg]

theorem encode_rejects_precision_witness :
    ((-3 : Int) ≤ 0) ∧
    (encode_time_hash 1000000000 (-3) (some ['x', 'y', 'z']) = some (-1, some ['x', 'y', 'z']) ∧
      ∀ (fuel : Nat) (s : EncodeState), s.thlen = 0 →
        encode_loop 1000000000 (-3) fuel s = some s) :=
  ⟨by decide, encode_rejects_precision 1000000000 (-3) (some ['x', 'y', 'z']) (by decide)⟩

set_option maxRecDepth 4000 in
/-- C15, counterexample: in binary64, for the timestamp `4039372800.0` and
precision 11 `encode_time_hash` writes `fffffffffff`, which
`decode_exactly_time_hash` decodes to a centre and an error with
`center + error < 4039372800`; and for the timestamp `2668446120.4828725`
(`5596137118462897 / 2^21`) and precision 13 it writes `daa1eedca1dde`, decoded to
a centre and an error with `center + error` below the timestamp. -/
theorem ties_rounded_centre :
    encode_time_hash_f64 (TIME_INTERVAL_END_F64 : Int) 11 (some (List.replicate 11 'x')) =
      some (0, some (List.replicate 11 'f')) ∧
    decode_exactly_time_hash_f64 (some (List.replicate 11 'f')) (some ⟨[], 0, 0⟩) =
      (0, some ⟨List.replicate 11 'f', 264724335805391 <<< 1058, 986175 <<< 1052⟩) ∧
    264724335805391 <<< 1058 + 986175 <<< 1052 < TIME_INTERVAL_END_F64 ∧
    encode_time_hash_f64 ((5596137118462897 <<< 1053 : Nat) : Int) 13
        (some (List.replicate 13 'x')) =
      some (0, some ['d', 'a', 'a', '1', 'e', 'e', 'd', 'c', 'a', '1', 'd', 'd', 'e']) ∧
    decode_exactly_time_hash_f64
        (some ['d', 'a', 'a', '1', 'e', 'e', 'd', 'c', 'a', '1', 'd', 'd', 'e'])
        (some ⟨[], 0, 0⟩) =
      (0, some ⟨['d', 'a', 'a', '1', 'e', 'e', 'd', 'c', 'a', '1', 'd', 'd', 'e'],
        699517139806899 <<< 1056, 986175 <<< 1046⟩) ∧
    699517139806899 <<< 1056 + 986175 <<< 1046 < 5596137118462897 <<< 1053 := by
  decide

/-- C15, amended: ties resolve downward. In the binary64 code, for a precision
`0 < p ≤ 10` and a double `0 < t ≤ 4039372800`, the centre and error
`decode_exactly_time_hash` returns for the hash `encode_time_hash` writes for
`(t, p)` satisfy `center - error < t ≤ center + error`; with arithmetic read as
exact this holds for every precision `p > 0`. In both readings the midpoint
`2019686400` is encoded at precision 1 to `b`, the last cell of the lower half. -/
theorem ties_resolve_downward_bounded (p : Int) (buffer : List Char) (hp : 0 < p)
    (hb : (buffer.length : Int) = p) :
    (p ≤ 10 → ∀ (t : Int) (th1 : time_hash_f64), 0 < t → t ≤ TIME_INTERVAL_END_F64 →
      ∃ hash th, encode_time_hash_f64 t p (some buffer) = some (0, some hash) ∧
        decode_exactly_time_hash_f64 (some hash) (some th1) = (0, some th) ∧
        (th.center : Int) - th.error < t ∧ t ≤ (th.center : Int) + th.error) ∧
    (∀ (t : ℚ) (th0 : time_hash), 0 < t → t ≤ 4039372800 →
      ∃ hash th, encode_time_hash t p (some buffer) = some (0, some hash) ∧
        decode_exactly_time_hash (some hash) (some th0) = (0, some th) ∧
        th.center - th.error < t ∧ t ≤ th.center + th.error) ∧
    (∀ x : Char,
      encode_time_hash_f64 ((2019686400 <<< 1074 : Nat) : Int) 1 (some [x]) =
        some (0, some ['b'])) ∧
    (∀ x : Char, encode_time_hash 2019686400 1 (some [x]) = some (0, some ['b'])) := by
  have hmid : ∀ x : Char, encode_time_hash 2019686400 1 (some [x]) = some (0, some ['b']) := by
    intro x
    rw [encode_time_hash_eq 2019686400 1 [x] (by decide) rfl]
    exact congrArg (fun l => some ((0 : Int), some l)) encode_chars_midpoint
  refine ⟨?_, ?_, ?_, hmid⟩
  · intro hp10 t th1 ht0 ht1
    have hq0 : 0 < f64_val t := by
      have := (f64_val_nat_lt 0 t).mpr ht0
      simpa [f64_val] using this
    have hq1 : f64_val t ≤ 4039372800 := by
      have := (f64_val_nat_le t _).mpr ht1
      rw [f64_val_end] at this
      exact this
    have hlen : (encode_chars (f64_val t) TIME_INTERVAL_START_TH TIME_INTERVAL_END_TH
        p.toNat).length ≤ 10 := by
      rw [encode_chars_length]; omega
    obtain ⟨k1, k2⟩ := ties_exact (f64_val t) p.toNat hq0 hq1
    have hv := (decode_loop_f64_exact _ (by omega : (encode_chars (f64_val t)
      TIME_INTERVAL_START_TH TIME_INTERVAL_END_TH p.toNat).length ≤ 11)).2
    have hc := decode_center_f64_exact _ hlen
    have he : f64_val ((decode_loop_f64 (encode_chars (f64_val t) TIME_INTERVAL_START_TH
        TIME_INTERVAL_END_TH p.toNat)).time_error : Nat) =
        (decode_loop (encode_chars (f64_val t) TIME_INTERVAL_START_TH
          TIME_INTERVAL_END_TH p.toNat)).time_error := by
      rw [← hv]; rfl
    refine ⟨encode_chars (f64_val t) TIME_INTERVAL_START_TH TIME_INTERVAL_END_TH p.toNat, _,
      ?_, decode_exactly_time_hash_f64_some _ th1, ?_, ?_⟩
    · rw [encode_time_hash_f64_exact t p _ (by omega)]
      exact encode_time_hash_eq (f64_val t) p buffer hp hb
    · rw [← f64_val_nat_lt, f64_val_sub]
      dsimp only
      rw [hc, he]
      exact k1
    · rw [← f64_val_nat_le, f64_val_add]
      dsimp only
      rw [hc, he]
      exact k2
  · intro t th0 ht0 ht1
    obtain ⟨k1, k2⟩ := ties_exact t p.toNat ht0 ht1
    exact ⟨_, _, encode_time_hash_eq t p buffer hp hb, decode_exactly_time_hash_some _ th0,
      k1, k2⟩
  · intro x
    rw [encode_time_hash_f64_exact _ 1 _ (by decide), f64_val_shift]
    exact_mod_cast hmid x

theorem ties_resolve_downward_bounded_witness :
    ((0 : Int) < 2 ∧ ((['x', 'y'].length : Nat) : Int) = 2 ∧ (2 : Int) ≤ 10 ∧
      (0 : Int) < ((2019686400 <<< 1074 : Nat) : Int) ∧
      ((2019686400 <<< 1074 : Nat) : Int) ≤ TIME_INTERVAL_END_F64 ∧
      (0 : ℚ) < 2019686400 ∧ (2019686400 : ℚ) ≤ 4039372800) ∧
    (∃ hash th,
      encode_time_hash_f64 ((2019686400 <<< 1074 : Nat) : Int) 2 (some ['x', 'y']) =
        some (0, some hash) ∧
      decode_exactly_time_hash_f64 (some hash) (some ⟨[], 0, 0⟩) = (0, some th) ∧
      (th.center : Int) - th.error < ((2019686400 <<< 1074 : Nat) : Int) ∧
      ((2019686400 <<< 1074 : Nat) : Int) ≤ (th.center : Int) + th.error) ∧
    (∃ hash th, encode_time_hash 2019686400 2 (some ['x', 'y']) = some (0, some hash) ∧
      decode_exactly_time_hash (some hash) (some ⟨[], 0, 0⟩) = (0, some th) ∧
      th.center - th.error < 2019686400 ∧ 2019686400 ≤ th.center + th.error) :=
  ⟨⟨by decide, by decide, by decide, by decide, by decide, by norm_num, by norm_num⟩,
    (ties_resolve_downward_bounded 2 ['x', 'y'] (by decide) (by decide)).1 (by decide) _
      ⟨[], 0, 0⟩ (by decide) (by decide),
    (ties_resolve_downward_bounded 2 ['x', 'y'] (by decide) (by decide)).2.1 2019686400
      ⟨[], 0, 0⟩ (by norm_num) (by norm_num)⟩

/-- C16, counterexample: `th::time_hash::before("0000")` returns `0000` and
`th::time_hash::after("ffff")` returns `ffff`, the input unchanged. -/
theorem cpp_navigator_returns_input :
    time_hash.before ['0', '0', '0', '0'] = some ['0', '0', '0', '0'] ∧
      time_hash.after ['f', 'f', 'f', 'f'] = some ['f', 'f', 'f', 'f'] :=
  ⟨by decide, by decide⟩

/-- C16, amended: the C++ navigator signals nothing at the boundary. For every hash
whose characters are all `0`, `th::time_hash::before(h)` returns `h` itself; for
every hash whose characters are all `f`, `th::time_hash::after(h)` returns `h`
itself. -/
theorem cpp_navigator_boundary (h : List Char) :
    ((∀ c ∈ h, c = '0') → time_hash.before h = some h) ∧
      ((∀ c ∈ h, c = 'f') → time_hash.after h = some h) := by
  constructor
  · intro hall
    unfold time_hash.before
    rw [List.eq_replicate_of_mem hall, List.reverse_replicate, cpp_neighbor_scan_all]
    rfl
  · intro hall
    unfold time_hash.after
    rw [List.eq_replicate_of_mem hall, List.reverse_replicate, cpp_neighbor_scan_all]
    rfl

theorem cpp_navigator_boundary_witness :
    ((∀ c ∈ ['0', '0', '0'], c = '0') ∧ (∀ c ∈ ['f', 'f'], c = 'f')) ∧
    time_hash.before ['0', '0', '0'] = some ['0', '0', '0'] ∧
    time_hash.after ['f', 'f'] = some ['f', 'f'] :=
  ⟨⟨by decide, by decide⟩, (cpp_navigator_boundary ['0', '0', '0']).1 (by decide),
    (cpp_navigator_boundary ['f', 'f']).2 (by decide)⟩

/-- C17 (the C and C++ codecs are equivalent): for every timestamp and every
precision `0 < p ≤ INT_MAX`, `th::time_hash::encode(t, p)` returns exactly the
string `encode_time_hash` writes into a buffer of length `p`; and for every string
`h`, `th::time_hash::decode_exactly(h)` is the hash, centre and error that
`decode_exactly_time_hash` stores. -/
theorem c_cpp_codecs_agree (t : ℚ) (p : Int) (buffer h : List Char) (th0 : time_hash)
    (hp : 0 < p) (hmax : p ≤ 2147483647) (hb : (buffer.length : Int) = p) :
    (∃ hash, encode_time_hash t p (some buffer) = some (0, some hash) ∧
      time_hash.encode t p = some hash) ∧
    (∃ th, decode_exactly_time_hash (some h) (some th0) = (0, some th) ∧
      time_hash.decode_exactly h = th ∧
      (time_hash.decode_exactly h).center = th.center ∧
      (time_hash.decode_exactly h).error = th.error) :=
  ⟨⟨_, encode_time_hash_eq t p buffer hp hb, cpp_encode_eq t p (le_of_lt hp) hmax⟩,
    ⟨_, decode_exactly_time_hash_some h th0, cpp_decode_exactly_eq h, rfl, rfl⟩⟩

theorem c_cpp_codecs_agree_witness :
    ((0 : Int) < 2 ∧ (2 : Int) ≤ 2147483647 ∧ ((['x', 'y'].length : Nat) : Int) = 2) ∧
    ((∃ hash, encode_time_hash 1234567890 2 (some ['x', 'y']) = some (0, some hash) ∧
      time_hash.encode 1234567890 2 = some hash) ∧
    (∃ th, decode_exactly_time_hash (some ['a', 'g']) (some ⟨[], 0, 0⟩) = (0, some th) ∧
      time_hash.decode_exactly ['a', 'g'] = th ∧
      (time_hash.decode_exactly ['a', 'g']).center = th.center ∧
      (time_hash.decode_exactly ['a', 'g']).error = th.error)) :=
  ⟨⟨by decide, by decide, by decide⟩,
    c_cpp_codecs_agree 1234567890 2 ['x', 'y'] ['a', 'g'] ⟨[], 0, 0⟩ (by decide) (by decide)
      (by decide)⟩

/-- C18 (encode undoes decode): for every non-empty valid hash `h` and buffer of
its length, `encode_time_hash` on `decode_time_hash(h)` at precision `len(h)`
returns `0` and writes `h`. -/
theorem encode_undoes_decode (h buffer : List Char) (hv : valid_hash h) (hne : h ≠ [])
    (hb : buffer.length = h.length) :
    encode_time_hash (decode_time_hash (some h)) (h.length : Int) (some buffer) =
      some (0, some h) := by
  have hpos : 0 < h.length := List.length_pos.mpr hne
  rw [encode_time_hash_eq _ (h.length : Int) buffer (by exact_mod_cast hpos)
    (by exact_mod_cast hb), Int.toNat_ofNat]
  have hcell : encode_chars (decode_time_hash (some h)) TIME_INTERVAL_START_TH
      TIME_INTERVAL_END_TH h.length = h := by
    have h8 : (0 : ℚ) < 8 ^ h.length := by positivity
    have hu : 0 < (TIME_INTERVAL_END_TH - TIME_INTERVAL_START_TH) / 8 ^ h.length := by
      apply div_pos _ h8
      simp only [TIME_INTERVAL_START_TH, TIME_INTERVAL_END_TH]
      norm_num
    have hc : decode_time_hash (some h) =
        TIME_INTERVAL_START_TH + ((hash_value h : ℚ) + 1 / 2) *
          ((TIME_INTERVAL_END_TH - TIME_INTERVAL_START_TH) / 8 ^ h.length) := by
      rw [decode_time_hash_some]
      unfold decode_loop
      rw [decode_fold_spec h decode_init hv]
      simp only [decode_init]
      ring
    apply encode_chars_cell _ h _ _ hv
      (by simp only [TIME_INTERVAL_START_TH, TIME_INTERVAL_END_TH]; norm_num)
    · rw [hc]; linarith
    · rw [hc]; linarith
  rw [hcell]

theorem encode_undoes_decode_witness :
    (valid_hash ['a', 'f'] ∧ ['a', 'f'] ≠ [] ∧ ['x', 'y'].length = ['a', 'f'].length) ∧
    encode_time_hash (decode_time_hash (some ['a', 'f'])) ((['a', 'f'].length : Nat) : Int)
        (some ['x', 'y']) =
      some (0, some ['a', 'f']) :=
  ⟨⟨by decide, by decide, by decide⟩,
    encode_undoes_decode ['a', 'f'] ['x', 'y'] (by decide) (by decide) (by decide)⟩

set_option maxRecDepth 4000 in
/-- C19, counterexample: in binary64 the centre `decode_exactly_time_hash` returns
for the valid hash `fffffffffff` (11 characters, value `8^11 - 1`) is not
`(2 v + 1) * 4039372800 / 2^34`, and for the valid hash `ffffffffffffffffff` (18
characters) it is `4039372800.0` itself, not below it. -/
theorem decode_center_rounded :
    valid_hash (List.replicate 11 'f') ∧
    (decode_exactly_time_hash_f64 (some (List.replicate 11 'f')) (some ⟨[], 0, 0⟩)).2.map
        (fun th => th.center * 2 ^ 34) ≠
      some ((2 * hash_value (List.replicate 11 'f') + 1) * TIME_INTERVAL_END_F64) ∧
    valid_hash (List.replicate 18 'f') ∧
    (decode_exactly_time_hash_f64 (some (List.replicate 18 'f')) (some ⟨[], 0, 0⟩)).2.map
        (fun th => th.center) =
      some TIME_INTERVAL_END_F64 := by
  decide

/-- C19, amended: for a valid hash `h` of `n` characters and base-8 value `v(h)`,
the centre `decode_exactly_time_hash` returns in the binary64 code is
`(2 v(h) + 1) * 4039372800 / 2^(3n+1)` when `n ≤ 10` (`2019686400` for the empty
hash) and strictly between `0` and `4039372800` when `n ≤ 17`; with arithmetic read
as exact both hold for every `n`. -/
theorem decode_closed_form_bounded (h : List Char) (th0 : time_hash) (th1 : time_hash_f64)
    (hv : valid_hash h) :
    (∃ th, decode_exactly_time_hash_f64 (some h) (some th1) = (0, some th) ∧
      (h.length ≤ 10 →
        f64_val th.center =
            (2 * (hash_value h : ℚ) + 1) * 4039372800 / 2 ^ (3 * h.length + 1) ∧
          (h = [] → f64_val th.center = 2019686400)) ∧
      (h.length ≤ 17 → 0 < f64_val th.center ∧ f64_val th.center < 4039372800)) ∧
    (∃ th, decode_exactly_time_hash (some h) (some th0) = (0, some th) ∧
      th.center = (2 * (hash_value h : ℚ) + 1) * 4039372800 / 2 ^ (3 * h.length + 1) ∧
      (0 < th.center ∧ th.center < 4039372800) ∧
      (h = [] → th.center = 2019686400)) := by
  obtain ⟨k1, k2, k3⟩ := decode_center_bounds h hv
  constructor
  · refine ⟨_, decode_exactly_time_hash_f64_some h th1, ?_, ?_⟩
    · intro hn
      have hc := decode_center_f64_exact h hn
      constructor
      · show f64_val (f64_mid (decode_loop_f64 h).start (decode_loop_f64 h).stop) = _
        rw [hc]; exact k1
      · intro hnil
        show f64_val (f64_mid (decode_loop_f64 h).start (decode_loop_f64 h).stop) = _
        rw [hc]; exact k3 hnil
    · intro hn
      exact decode_center_f64_inside h hn
  · exact ⟨_, decode_exactly_time_hash_some h th0, k1, k2, k3⟩

theorem decode_closed_form_bounded_witness :
    (valid_hash ['a', 'f'] ∧ ['a', 'f'].length ≤ 10 ∧ ['a', 'f'].length ≤ 17) ∧
    (∃ th, decode_exactly_time_hash_f64 (some ['a', 'f']) (some ⟨[], 0, 0⟩) = (0, some th) ∧
      (f64_val th.center =
          (2 * (hash_value ['a', 'f'] : ℚ) + 1) * 4039372800 /
            2 ^ (3 * ['a', 'f'].length + 1) ∧
        (['a', 'f'] = [] → f64_val th.center = 2019686400)) ∧
      (0 < f64_val th.center ∧ f64_val th.center < 4039372800)) ∧
    (∃ th, decode_exactly_time_hash (some ['a', 'f']) (some ⟨[], 0, 0⟩) = (0, some th) ∧
      th.center =
        (2 * (hash_value ['a', 'f'] : ℚ) + 1) * 4039372800 / 2 ^ (3 * ['a', 'f'].length + 1) ∧
      (0 < th.center ∧ th.center < 4039372800) ∧
      (['a', 'f'] = [] → th.center = 2019686400)) := by
  obtain ⟨⟨th, r1, r2, r3⟩, r4⟩ :=
    decode_closed_form_bounded ['a', 'f'] ⟨[], 0, 0⟩ ⟨[], 0, 0⟩ (by decide)
  exact ⟨⟨by decide, by decide, by decide⟩, ⟨th, r1, r2 (by decide), r3 (by decide)⟩, r4⟩

/-- C20 (prefix property of encode): for every timestamp and precisions
`0 < p ≤ q`, the hash `encode_time_hash` writes for `(t, p)` is a prefix of the
hash it writes for `(t, q)`, namely its first `p` characters; for `q ≤ INT_MAX`
these are also the hashes `th::time_hash::encode` returns. -/
theorem encode_prefix (t : ℚ) (p q : Int) (b1 b2 : List Char) (hp : 0 < p) (hpq : p ≤ q)
    (hb1 : (b1.length : Int) = p) (hb2 : (b2.length : Int) = q) :
    ∃ h1 h2, encode_time_hash t p (some b1) = some (0, some h1) ∧
      encode_time_hash t q (some b2) = some (0, some h2) ∧
      h1 <+: h2 ∧ h2.take p.toNat = h1 ∧
      (q ≤ 2147483647 → time_hash.encode t p = some h1 ∧ time_hash.encode t q = some h2) := by
  have hpre := encode_chars_prefix t p.toNat q.toNat TIME_INTERVAL_START_TH
    TIME_INTERVAL_END_TH (by omega)
  refine ⟨_, _, encode_time_hash_eq t p b1 hp hb1, encode_time_hash_eq t q b2 (by omega) hb2,
    hpre, ?_, fun hq => ⟨cpp_encode_eq t p (le_of_lt hp) (by omega),
      cpp_encode_eq t q (by omega) hq⟩⟩
  have := List.prefix_iff_eq_take.mp hpre
  rw [encode_chars_length] at this
  exact this.symm

theorem encode_prefix_witness :
    ((0 : Int) < 1 ∧ (1 : Int) ≤ 3 ∧
      ((['x'].length : Nat) : Int) = 1 ∧ ((['u', 'v', 'w'].length : Nat) : Int) = 3) ∧
    ∃ h1 h2, encode_time_hash 1234567890 1 (some ['x']) = some (0, some h1) ∧
      encode_time_hash 1234567890 3 (some ['u', 'v', 'w']) = some (0, some h2) ∧
      h1 <+: h2 ∧ h2.take (1 : Int).toNat = h1 ∧
      ((3 : Int) ≤ 2147483647 →
        time_hash.encode 1234567890 1 = some h1 ∧ time_hash.encode 1234567890 3 = some h2) :=
  ⟨⟨by decide, by decide, by decide, by decide⟩,
    encode_prefix 1234567890 1 3 ['x'] ['u', 'v', 'w'] (by decide) (by decide) (by decide)
      (by decide)⟩

end TimeHash
